import Mathlib

/-!
Verification of the EL completion-rule subsumption engine in
`El_reasoner.py`.  The program works on Python strings, dicts and sets:
here strings are Lean `String`s, Python dicts become insertion-ordered
association lists (`dictGet` / `dictSet`), and Python sets become
insertion-ordered duplicate-free lists (`setAdd`).  Every definition is a
direct transcription of the corresponding Python code.
-/

namespace ELVerify

/-! ### Python string primitives -/

/-- Python `s.startswith(t)`: `t` is a prefix of `s`, on the character
sequence. -/
def pyStartsWith (s t : String) : Bool := t.data.isPrefixOf s.data

/-- Python `s.endswith(t)`: `t` is a suffix of `s`, on the character
sequence. -/
def pyEndsWith (s t : String) : Bool := t.data.isSuffixOf s.data

/-- Python `c in s` for a single character `c`. -/
def pyContainsChar (s : String) (c : Char) : Bool := s.data.contains c

/-- Index of the first occurrence of `sep` (a non-empty character list)
inside `l`, if any. -/
def findSubIdx (sep : List Char) : List Char → Option Nat
  | [] => if sep = [] then some 0 else none
  | c :: rest =>
    if sep.isPrefixOf (c :: rest) then some 0
    else (findSubIdx sep rest).map (· + 1)

/-- Fuel-driven worker for `pySplit`. -/
def pySplitCore (sep : List Char) : Nat → List Char → List (List Char)
  | 0, l => [l]
  | fuel + 1, l =>
    match findSubIdx sep l with
    | none => [l]
    | some i => l.take i :: pySplitCore sep fuel (l.drop (i + sep.length))

/-- Python `s.split(sep)` for a non-empty separator. -/
def pySplit (s sep : String) : List String :=
  (pySplitCore sep.data (s.data.length + 1) s.data).map String.mk

/-- Python `concept[1:concept.find(".")]` as used on `∃r.C` strings:
the role name between the leading `∃` and the first dot. -/
def roleOf (s : String) : String :=
  match s.data.findIdx? (fun c => c = '.') with
  | some i => String.mk ((s.data.drop 1).take (i - 1))
  | none => String.mk (s.data.drop 1).dropLast

/-- Python `concept[concept.find(".")+1:]`: the filler after the first
dot (the whole string when there is no dot, matching `find` = -1). -/
def fillerOf (s : String) : String :=
  match s.data.findIdx? (fun c => c = '.') with
  | some i => String.mk (s.data.drop (i + 1))
  | none => s

/-! ### Python dict / set primitives -/

/-- Python `m[k]` lookup in an insertion-ordered dict. -/
def dictGet {β : Type} (m : List (String × β)) (k : String) : Option β :=
  match m with
  | [] => none
  | (k', v) :: rest => if k' = k then some v else dictGet rest k

/-- Python `m[k] = v`: update in place, or append a new binding. -/
def dictSet {β : Type} (m : List (String × β)) (k : String) (v : β) :
    List (String × β) :=
  match m with
  | [] => [(k, v)]
  | (k', v') :: rest =>
    if k' = k then (k, v) :: rest else (k', v') :: dictSet rest k v

/-- Python `s.add(x)` on a set modeled as a duplicate-free list. -/
def setAdd (s : List String) (x : String) : List String :=
  if x ∈ s then s else s ++ [x]

/-! ### The reasoner state (`ELReasoner.__init__`) -/

/-- The mutable state of `ELReasoner`: `concepts` maps elements to their
concept labels, `successors` maps elements to a dict from successor
element to role, `initial_concepts` records each element's generating
concept, and `gci_axioms` is the expanded GCI list. -/
structure Reasoner where
  concepts : List (String × List String)
  successors : List (String × List (String × String))
  initial_concepts : List (String × String)
  gci_axioms : List (String × String)
deriving DecidableEq

/-- A fresh reasoner holding the given expanded GCI list. -/
def initState (axioms : List (String × String)) : Reasoner :=
  ⟨[], [], [], axioms⟩

/-- The concept label of an element (Python `self.concepts[element]`). -/
def labelOf (st : Reasoner) (el : String) : List String :=
  (dictGet st.concepts el).getD []

/-- The successor dict of an element (Python
`self.successors[element]`). -/
def succOf (st : Reasoner) (el : String) : List (String × String) :=
  (dictGet st.successors el).getD []

/-- `initialize_element`: register a new element with its generating
concept, unless it already exists. -/
def initialize_element (st : Reasoner) (element concept : String) : Reasoner :=
  if (dictGet st.concepts element).isSome then st
  else
    { st with
      concepts := st.concepts ++ [(element, [concept])]
      initial_concepts := st.initial_concepts ++ [(element, concept)]
      successors := st.successors ++ [(element, [])] }

/-- Write a possibly-grown label back for an element (Python mutates
`self.concepts[element]` in place). -/
def withLabel (st : Reasoner) (el : String) (cs : List String) : Reasoner :=
  { st with concepts := dictSet st.concepts el cs }

/-- `self.concepts[element].add(c)`. -/
def addConcept (st : Reasoner) (el c : String) : Reasoner :=
  withLabel st el (setAdd (labelOf st el) c)

/-- `self.successors[element][e] = role`. -/
def setSuccessor (st : Reasoner) (el e role : String) : Reasoner :=
  { st with successors := dictSet st.successors el (dictSet (succOf st el) e role) }

/-! ### The completion rules -/

/-- `apply_top_rule`: add `TOP` to the element's label if absent. -/
def apply_top_rule (st : Reasoner) (element : String) : Reasoner × Bool :=
  if "TOP" ∈ labelOf st element then (st, false)
  else (addConcept st element "TOP", true)

/-- The set of all strings occurring as a side of some GCI
(`input_concepts` in `apply_conjunction_rules`). -/
def inputConcepts (axioms : List (String × String)) : List String :=
  axioms.foldl (fun acc p => setAdd (setAdd acc p.1) p.2) []

/-- One addition step of ⊓-rule 1: add a conjunct if missing. -/
def addPartStep (a : List String × Bool) (part : String) : List String × Bool :=
  if part ∈ a.1 then a else (a.1 ++ [part], true)

/-- One concept step of ⊓-rule 1: split a conjunction and add its
parts. -/
def conjRule1Step (a : List String × Bool) (concept : String) :
    List String × Bool :=
  if pyContainsChar concept '⊓' then
    (pySplit concept " ⊓ ").foldl addPartStep a
  else a

/-- ⊓-rule 1 over a snapshot of the label. -/
def conjRule1 (cs : List String) : List String × Bool :=
  cs.foldl conjRule1Step (cs, false)

/-- One inner step of ⊓-rule 2 for the fixed left conjunct `x`. -/
def conjPairStep (input : List String) (x : String)
    (a : List String × Bool) (y : String) : List String × Bool :=
  let conj := x ++ " ⊓ " ++ y
  if conj ∈ input ∧ conj ∉ a.1 then (a.1 ++ [conj], true) else a

/-- ⊓-rule 2's double loop over ordered pairs `i < j` of the sorted
candidate list. -/
def conjPairs (input : List String) : List String → List String × Bool →
    List String × Bool
  | [], a => a
  | x :: rest, a => conjPairs input rest (rest.foldl (conjPairStep input x) a)

/-- Lexicographic comparison of character sequences by code point,
exactly Python's `<` on strings. -/
def charListLt : List Char → List Char → Bool
  | _, [] => false
  | [], _ :: _ => true
  | a :: as, b :: bs =>
    if a.toNat < b.toNat then true
    else if b.toNat < a.toNat then false
    else charListLt as bs

/-- Python `a < b` on strings. -/
def pyStrLt (a b : String) : Bool := charListLt a.data b.data

/-- Python `a <= b` on strings. -/
def pyStrLe (a b : String) : Bool := !pyStrLt b a

/-- Python `a <= b` on strings, as the sorting relation. -/
def strLeRel : String → String → Prop := fun a b => pyStrLe a b = true

instance : DecidableRel strLeRel := fun a b => instDecidableEqBool (pyStrLe a b) true

/-- Python `sorted` on strings (code-point lexicographic order). -/
def sortStrings (l : List String) : List String :=
  l.insertionSort strLeRel

/-- `apply_conjunction_rules`: unfold conjunctions in the label, then
fold pairs whose conjunction occurs in the input. -/
def apply_conjunction_rules (st : Reasoner) (element : String) :
    Reasoner × Bool :=
  let p1 := conjRule1 (labelOf st element)
  let input := inputConcepts st.gci_axioms
  let cl := sortStrings (p1.1.filter (fun c => decide (c ∈ input)))
  let p2 := conjPairs input cl p1
  (withLabel st element p2.1, p2.2)

/-- The `has_successor` check of ∃-rule 1: is there already a
`role`-successor whose generating concept is `filler`? -/
def hasMatchingSucc (st : Reasoner) (element role filler : String) : Bool :=
  (succOf st element).any
    (fun p => decide (p.2 = role) && decide (dictGet st.initial_concepts p.1 = some filler))

/-- The reuse lookup of ∃-rule 1: the first element (in creation order)
whose generating concept is `filler`. -/
def findReuse (st : Reasoner) (filler : String) : Option (String × String) :=
  st.initial_concepts.find? (fun p => decide (p.2 = filler))

/-- One concept step of ∃-rule 1. -/
def existRule1Step (element : String) (a : Reasoner × Bool) (concept : String) :
    Reasoner × Bool :=
  if pyStartsWith concept "∃" then
    let role := roleOf concept
    let filler := fillerOf concept
    if hasMatchingSucc a.1 element role filler then a
    else
      match findReuse a.1 filler with
      | some p => (setSuccessor a.1 element p.1 role, true)
      | none =>
        let new_succ := element ++ "_succ_" ++ toString (succOf a.1 element).length
        (setSuccessor (initialize_element a.1 new_succ filler) element new_succ role, true)
  else a

/-- One concept step of ∃-rule 2 for a fixed successor's role. -/
def existRule2Add (element role : String) (a : Reasoner × Bool) (concept : String) :
    Reasoner × Bool :=
  let existential := "∃" ++ role ++ "." ++ concept
  if existential ∈ labelOf a.1 element then a
  else (withLabel a.1 element (labelOf a.1 element ++ [existential]), true)

/-- One successor step of ∃-rule 2. -/
def existRule2Step (element : String) (a : Reasoner × Bool) (p : String × String) :
    Reasoner × Bool :=
  (labelOf a.1 p.1).foldl (existRule2Add element p.2) a

/-- `apply_existential_rules`: generate or reuse witnesses for
existentials in the label, then propagate successors' concepts back as
existentials. -/
def apply_existential_rules (st : Reasoner) (element : String) :
    Reasoner × Bool :=
  let p1 := (labelOf st element).foldl (existRule1Step element) (st, false)
  (succOf p1.1 element).foldl (existRule2Step element) p1

/-- The inner equivalence-propagation loop of `apply_subsumption_rule`. -/
def subEqStep (element rhs : String) (a : Reasoner × Bool)
    (og : String × String) : Reasoner × Bool :=
  if og.1 = rhs ∧ og.2 ∉ labelOf a.1 element then
    (addConcept a.1 element og.2, true)
  else a

/-- One axiom step of `apply_subsumption_rule`. -/
def subStep (element : String) (a : Reasoner × Bool) (ax : String × String) :
    Reasoner × Bool :=
  if ax.1 ∈ labelOf a.1 element ∧ ax.2 ∉ labelOf a.1 element then
    let st' := addConcept a.1 element ax.2
    if (ax.2, ax.1) ∈ st'.gci_axioms then
      st'.gci_axioms.foldl (subEqStep element ax.2) (st', true)
    else (st', true)
  else a

/-- `apply_subsumption_rule`: close the label under the GCIs, with the
extra equivalence propagation the code performs. -/
def apply_subsumption_rule (st : Reasoner) (element : String) :
    Reasoner × Bool :=
  st.gci_axioms.foldl (subStep element) (st, false)

/-! ### The fixpoint driver (`compute_subsumers`) -/

/-- One element step of the saturation sweep: apply all four rule
procedures and accumulate the changed flag (`changed |= rule(...)`). -/
def sweepOne (a : Reasoner × Bool) (element : String) : Reasoner × Bool :=
  let p1 := apply_top_rule a.1 element
  let p2 := apply_conjunction_rules p1.1 element
  let p3 := apply_existential_rules p2.1 element
  let p4 := apply_subsumption_rule p3.1 element
  (p4.1, a.2 || p1.2 || p2.2 || p3.2 || p4.2)

/-- One iteration of the while loop: apply all rules to all elements
existing at the start of the iteration. -/
def sweep (st : Reasoner) : Reasoner × Bool :=
  (st.concepts.map Prod.fst).foldl sweepOne (st, false)

/-- The while loop of `compute_subsumers`, with
`fuel = max_iterations - iteration_count`: loop while `changed` and
iterations remain. -/
def saturateLoop : Nat → Reasoner → Bool → Reasoner × Bool
  | 0, st, changed => (st, changed)
  | fuel + 1, st, changed =>
    if changed then
      let p := sweep st
      saturateLoop fuel p.1 p.2
    else (st, changed)

/-- The quoting preamble of `compute_subsumers`. -/
def quoteClassName (class_name : String) : String :=
  let n := if pyStartsWith class_name "\"" then class_name
           else "\"" ++ class_name ++ "\""
  if pyEndsWith n "\"" then n else n ++ "\""

/-- The final filter: named concepts (quoted strings) and `TOP`. -/
def isOutput (c : String) : Bool :=
  (pyStartsWith c "\"" && pyEndsWith c "\"") || c == "TOP"

/-- `compute_subsumers`: quote the class name, initialize the root
element `d0`, saturate with the defensive cap
`max_iterations = len(gci_axioms) * 10`, and filter the root label. -/
def compute_subsumers (gci_axioms : List (String × String))
    (class_name : String) : List String :=
  let cn := quoteClassName class_name
  let st := initialize_element (initState gci_axioms) "d0" cn
  let p := saturateLoop (gci_axioms.length * 10) st true
  (labelOf p.1 "d0").filter isOutput

/-! ## Basic lemmas about the dict and set primitives -/

theorem dictGet_dictSet_self {β : Type} (m : List (String × β)) (k : String) (v : β) :
    dictGet (dictSet m k v) k = some v := by
  induction m with
  | nil => simp [dictGet, dictSet]
  | cons p rest ih =>
    obtain ⟨k', v'⟩ := p
    by_cases h : k' = k
    · simp [dictGet, dictSet, h]
    · simp [dictGet, dictSet, h, ih]

theorem dictGet_dictSet_ne {β : Type} (m : List (String × β)) (k k' : String) (v : β)
    (h : k' ≠ k) : dictGet (dictSet m k v) k' = dictGet m k' := by
  induction m with
  | nil => simp [dictGet, dictSet, Ne.symm h]
  | cons p rest ih =>
    obtain ⟨a, b⟩ := p
    by_cases ha : a = k
    · subst ha
      simp [dictGet, dictSet, Ne.symm h]
    · simp only [dictSet, ha, if_false]
      by_cases hb : a = k'
      · simp [dictGet, hb]
      · simp [dictGet, hb, ih]

theorem dictSet_eq_self {β : Type} (m : List (String × β)) (k : String) (v : β)
    (h : dictGet m k = some v) : dictSet m k v = m := by
  induction m with
  | nil => simp [dictGet] at h
  | cons p rest ih =>
    obtain ⟨a, b⟩ := p
    by_cases ha : a = k
    · subst ha
      simp [dictGet] at h
      simp [dictSet, h]
    · simp [dictGet, ha] at h
      simp [dictSet, ha, ih h]

theorem dictGet_append_some {β : Type} (m l : List (String × β)) (k : String) (v : β)
    (h : dictGet m k = some v) : dictGet (m ++ l) k = some v := by
  induction m with
  | nil => simp [dictGet] at h
  | cons p rest ih =>
    obtain ⟨a, b⟩ := p
    by_cases ha : a = k
    · simp_all [dictGet]
    · simp_all [dictGet]

theorem dictGet_append_none {β : Type} (m l : List (String × β)) (k : String)
    (h : dictGet m k = none) : dictGet (m ++ l) k = dictGet l k := by
  induction m with
  | nil => simp [dictGet]
  | cons p rest ih =>
    obtain ⟨a, b⟩ := p
    by_cases ha : a = k
    · simp_all [dictGet]
    · simp_all [dictGet]

theorem dictGet_mem {β : Type} {m : List (String × β)} {k : String} {v : β}
    (h : dictGet m k = some v) : (k, v) ∈ m := by
  induction m with
  | nil => simp [dictGet] at h
  | cons p rest ih =>
    obtain ⟨a, b⟩ := p
    by_cases ha : a = k
    · subst ha
      simp [dictGet] at h
      simp [h]
    · simp [dictGet, ha] at h
      exact List.mem_cons_of_mem _ (ih h)

theorem dictGet_eq_none_iff {β : Type} (m : List (String × β)) (k : String) :
    dictGet m k = none ↔ k ∉ m.map Prod.fst := by
  induction m with
  | nil => simp [dictGet]
  | cons p rest ih =>
    obtain ⟨a, b⟩ := p
    by_cases ha : a = k
    · subst ha
      simp [dictGet]
    · simp only [dictGet, ha, if_false, List.map_cons, List.mem_cons, ih]
      constructor
      · rintro hk (he | hm)
        · exact ha he.symm
        · exact hk hm
      · intro hk hm
        exact hk (Or.inr hm)

theorem dictGet_isSome_of_mem_keys {β : Type} {m : List (String × β)} {k : String}
    (h : k ∈ m.map Prod.fst) : ∃ v, dictGet m k = some v := by
  rcases hv : dictGet m k with _ | v
  · exact absurd h ((dictGet_eq_none_iff m k).mp hv)
  · exact ⟨v, rfl⟩

theorem keys_dictSet_mem {β : Type} (m : List (String × β)) (k : String) (v : β)
    (h : k ∈ m.map Prod.fst) : (dictSet m k v).map Prod.fst = m.map Prod.fst := by
  induction m with
  | nil => simp at h
  | cons p rest ih =>
    obtain ⟨a, b⟩ := p
    by_cases ha : a = k
    · simp [dictSet, ha]
    · simp only [List.map_cons, List.mem_cons] at h
      rcases h with h | h
      · exact absurd h.symm ha
      · simp [dictSet, ha, ih h]

theorem keys_dictSet_not_mem {β : Type} (m : List (String × β)) (k : String) (v : β)
    (h : k ∉ m.map Prod.fst) : (dictSet m k v).map Prod.fst = m.map Prod.fst ++ [k] := by
  induction m with
  | nil => simp [dictSet]
  | cons p rest ih =>
    obtain ⟨a, b⟩ := p
    simp only [List.map_cons, List.mem_cons] at h
    push_neg at h
    simp [dictSet, Ne.symm h.1, ih h.2]

theorem keys_dictSet_sub {β : Type} (m : List (String × β)) (k : String) (v : β) :
    m.map Prod.fst ⊆ (dictSet m k v).map Prod.fst := by
  by_cases h : k ∈ m.map Prod.fst
  · rw [keys_dictSet_mem m k v h]
    exact fun _ hx => hx
  · rw [keys_dictSet_not_mem m k v h]
    exact List.subset_append_left _ _

theorem keys_dictSet_nodup {β : Type} (m : List (String × β)) (k : String) (v : β)
    (h : (m.map Prod.fst).Nodup) : ((dictSet m k v).map Prod.fst).Nodup := by
  by_cases hk : k ∈ m.map Prod.fst
  · rwa [keys_dictSet_mem m k v hk]
  · rw [keys_dictSet_not_mem m k v hk]
    rw [List.nodup_append]
    exact ⟨h, List.nodup_singleton k, by simp [hk]⟩

theorem mem_dictSet {β : Type} {m : List (String × β)} {k : String} {v : β} {p : String × β} :
    p ∈ dictSet m k v → p = (k, v) ∨ p ∈ m := by
  induction m with
  | nil =>
    intro h
    simp only [dictSet, List.mem_singleton] at h
    exact Or.inl h
  | cons q rest ih =>
    obtain ⟨a, b⟩ := q
    intro h
    by_cases ha : a = k
    · rw [show dictSet ((a, b) :: rest) k v = (k, v) :: rest by simp [dictSet, ha]] at h
      rcases List.mem_cons.mp h with h | h
      · exact Or.inl h
      · exact Or.inr (List.mem_cons_of_mem _ h)
    · rw [show dictSet ((a, b) :: rest) k v = (a, b) :: dictSet rest k v by
        simp [dictSet, ha]] at h
      rcases List.mem_cons.mp h with h | h
      · exact Or.inr (by simp [h])
      · rcases ih h with h' | h'
        · exact Or.inl h'
        · exact Or.inr (List.mem_cons_of_mem _ h')

theorem setAdd_sub (s : List String) (x : String) : s ⊆ setAdd s x := by
  unfold setAdd
  split
  · exact fun _ h => h
  · exact List.subset_append_left _ _

theorem mem_setAdd_self (s : List String) (x : String) : x ∈ setAdd s x := by
  unfold setAdd
  split
  · assumption
  · simp

theorem mem_setAdd_iff (s : List String) (x y : String) :
    y ∈ setAdd s x ↔ y ∈ s ∨ y = x := by
  unfold setAdd
  by_cases h : x ∈ s
  · simp only [h, if_true]
    exact ⟨Or.inl, fun hh => hh.elim id (fun e => e ▸ h)⟩
  · simp [h]

theorem mem_inputConcepts (axioms : List (String × String)) (x : String) :
    x ∈ inputConcepts axioms ↔ ∃ p ∈ axioms, p.1 = x ∨ p.2 = x := by
  have gen : ∀ (l : List (String × String)) (acc : List String),
      x ∈ l.foldl (fun acc p => setAdd (setAdd acc p.1) p.2) acc ↔
        x ∈ acc ∨ ∃ p ∈ l, p.1 = x ∨ p.2 = x := by
    intro l
    induction l with
    | nil => simp
    | cons p rest ih =>
      intro acc
      rw [List.foldl_cons, ih]
      simp only [mem_setAdd_iff, List.mem_cons]
      constructor
      · rintro ((h | h) | h)
        · rcases h with h | h
          · exact Or.inl h
          · exact Or.inr ⟨p, Or.inl rfl, Or.inl h.symm⟩
        · exact Or.inr ⟨p, Or.inl rfl, Or.inr h.symm⟩
        · rcases h with ⟨q, hq, hh⟩
          exact Or.inr ⟨q, Or.inr hq, hh⟩
      · rintro (h | ⟨q, hq | hq, hh⟩)
        · exact Or.inl (Or.inl (Or.inl h))
        · subst hq
          rcases hh with hh | hh
          · exact Or.inl (Or.inl (Or.inr hh.symm))
          · exact Or.inl (Or.inr hh.symm)
        · exact Or.inr ⟨q, hq, hh⟩
  rw [inputConcepts, gen]
  simp

/-! ## Lemmas about the string primitives and quoting -/

theorem str_data_append (a b : String) : (a ++ b).data = a.data ++ b.data := by
  cases a
  cases b
  rfl

theorem quote_data_eq (n : String) : ∃ t : List Char, (quoteClassName n).data = '"' :: t := by
  unfold quoteClassName
  have hq : ("\"" : String).data = ['"'] := rfl
  by_cases h1 : pyStartsWith n "\"" = true
  · have hd : ∃ t, n.data = '"' :: t := by
      unfold pyStartsWith at h1
      rw [hq] at h1
      rcases hn : n.data with _ | ⟨c, t⟩
      · rw [hn] at h1
        simp [List.isPrefixOf] at h1
      · rw [hn] at h1
        rw [List.isPrefixOf_cons₂] at h1
        simp only [List.isPrefixOf_nil_left, Bool.and_true, beq_iff_eq] at h1
        exact ⟨t, by rw [← h1]⟩
    rcases hd with ⟨t, ht⟩
    rw [if_pos h1]
    by_cases h2 : pyEndsWith n "\"" = true
    · rw [if_pos h2]
      exact ⟨t, ht⟩
    · rw [if_neg h2]
      exact ⟨t ++ ['"'], by rw [str_data_append, ht, hq]; rfl⟩
  · rw [if_neg h1]
    by_cases h2 : pyEndsWith ("\"" ++ n ++ "\"") "\"" = true
    · rw [if_pos h2]
      exact ⟨n.data ++ ['"'], by rw [str_data_append, str_data_append, hq]; rfl⟩
    · rw [if_neg h2]
      exact ⟨n.data ++ ['"'] ++ ['"'], by
        rw [str_data_append, str_data_append, str_data_append, hq]; rfl⟩

theorem pyStartsWith_quote (n : String) : pyStartsWith (quoteClassName n) "\"" = true := by
  rcases quote_data_eq n with ⟨t, ht⟩
  unfold pyStartsWith
  rw [ht, show ("\"" : String).data = ['"'] from rfl, List.isPrefixOf_cons₂]
  simp

theorem pyEndsWith_append_quote (s : String) : pyEndsWith (s ++ "\"") "\"" = true := by
  unfold pyEndsWith
  rw [str_data_append, show ("\"" : String).data = ['"'] from rfl]
  simp [List.isSuffixOf, List.isPrefixOf_cons₂]

theorem pyEndsWith_quote (n : String) : pyEndsWith (quoteClassName n) "\"" = true := by
  unfold quoteClassName
  by_cases h1 : pyStartsWith n "\"" = true
  · rw [if_pos h1]
    by_cases h2 : pyEndsWith n "\"" = true
    · rw [if_pos h2]
      exact h2
    · rw [if_neg h2]
      exact pyEndsWith_append_quote n
  · rw [if_neg h1]
    by_cases h2 : pyEndsWith ("\"" ++ n ++ "\"") "\"" = true
    · rw [if_pos h2]
      exact h2
    · rw [if_neg h2]
      exact pyEndsWith_append_quote _

theorem quote_ne_TOP (n : String) : quoteClassName n ≠ "TOP" := by
  intro h
  have := pyStartsWith_quote n
  rw [h] at this
  exact absurd this (by decide)

theorem isOutput_quote (n : String) : isOutput (quoteClassName n) = true := by
  unfold isOutput
  rw [pyStartsWith_quote, pyEndsWith_quote]
  rfl

theorem quote_not_existential (n : String) :
    pyStartsWith (quoteClassName n) "∃" = false := by
  rcases quote_data_eq n with ⟨t, ht⟩
  unfold pyStartsWith
  rw [ht, show ("∃" : String).data = ['∃'] from rfl, List.isPrefixOf_cons₂]
  simp

/-! ## Lemmas about the code-point order used by `sortStrings` -/

theorem charListLt_irrefl : ∀ l : List Char, charListLt l l = false := by
  intro l
  induction l with
  | nil => rfl
  | cons c rest ih => simp [charListLt, ih]

theorem charListLt_asymm : ∀ a b : List Char,
    charListLt a b = true → charListLt b a = false := by
  intro a
  induction a with
  | nil =>
    intro b _
    cases b <;> rfl
  | cons x xs ih =>
    intro b h
    cases b with
    | nil => simp [charListLt] at h
    | cons y ys =>
      simp only [charListLt] at h ⊢
      by_cases hxy : x.toNat < y.toNat
      · have : ¬y.toNat < x.toNat := by omega
        simp [hxy, this]
      · by_cases hyx : y.toNat < x.toNat
        · simp [hxy, hyx] at h
        · simp only [hxy, hyx, if_false] at h ⊢
          exact ih ys h

theorem charListLt_connex : ∀ c b a : List Char,
    charListLt c a = true → charListLt c b = true ∨ charListLt b a = true := by
  intro c
  induction c with
  | nil =>
    intro b a h
    cases a with
    | nil => simp [charListLt] at h
    | cons x xs =>
      cases b with
      | nil => exact Or.inr (by rfl)
      | cons y ys => exact Or.inl (by rfl)
  | cons z zs ih =>
    intro b a h
    cases a with
    | nil => simp [charListLt] at h
    | cons x xs =>
      cases b with
      | nil => exact Or.inr (by rfl)
      | cons y ys =>
        simp only [charListLt] at h ⊢
        by_cases hzy : z.toNat < y.toNat
        · exact Or.inl (by simp [hzy])
        · by_cases hyz : y.toNat < z.toNat
          · -- y < z and (z < x or z = x with tails): in both cases y < x
            by_cases hzx : z.toNat < x.toNat
            · exact Or.inr (by simp [show y.toNat < x.toNat by omega])
            · by_cases hxz : x.toNat < z.toNat
              · simp [hzx, hxz] at h
              · exact Or.inr (by simp [show y.toNat < x.toNat by omega])
          · -- y and z have equal code points
            by_cases hzx : z.toNat < x.toNat
            · refine Or.inr ?_
              simp [show y.toNat < x.toNat by omega]
            · by_cases hxz : x.toNat < z.toNat
              · simp [hzx, hxz] at h
              · simp only [hzx, hxz, if_false] at h
                have hxy : ¬x.toNat < y.toNat := by omega
                have hyx : ¬y.toNat < x.toNat := by omega
                rcases ih ys xs h with h' | h'
                · exact Or.inl (by simp [hzy, hyz, h'])
                · exact Or.inr (by simp [hyx, hxy, h'])

instance : IsTotal String strLeRel := by
  constructor
  intro a b
  unfold strLeRel pyStrLe pyStrLt
  by_cases h : charListLt b.data a.data = true
  · right
    rw [charListLt_asymm _ _ h]
    rfl
  · left
    rw [Bool.not_eq_true] at h
    rw [h]
    rfl

instance : IsTrans String strLeRel := by
  constructor
  intro a b c hab hbc
  unfold strLeRel pyStrLe pyStrLt at hab hbc ⊢
  rw [Bool.not_eq_true'] at hab hbc ⊢
  by_contra hca
  rw [Bool.not_eq_false] at hca
  rcases charListLt_connex _ b.data _ hca with h | h
  · rw [hbc] at h
    cases h
  · rw [hab] at h
    cases h

/-! ## Monotonicity: labels and successor-target sets only grow -/

/-- `GrowsTo s t`: every element's concept label in `s` is contained in
its label in `t`, and every element's set of successor targets in `s`
is contained in its set of successor targets in `t`. -/
def GrowsTo (s t : Reasoner) : Prop :=
  (∀ el, labelOf s el ⊆ labelOf t el)
  ∧ (∀ el, (succOf s el).map Prod.fst ⊆ (succOf t el).map Prod.fst)

theorem GrowsTo.refl (s : Reasoner) : GrowsTo s s :=
  ⟨fun _ _ h => h, fun _ _ h => h⟩

theorem GrowsTo.trans {a b c : Reasoner} (h1 : GrowsTo a b) (h2 : GrowsTo b c) :
    GrowsTo a c :=
  ⟨fun el => (h1.1 el).trans (h2.1 el), fun el => (h1.2 el).trans (h2.2 el)⟩

theorem labelOf_withLabel_self (st : Reasoner) (el : String) (cs : List String) :
    labelOf (withLabel st el cs) el = cs := by
  unfold labelOf withLabel
  simp [dictGet_dictSet_self]

theorem labelOf_withLabel_ne (st : Reasoner) (el el' : String) (cs : List String)
    (h : el' ≠ el) : labelOf (withLabel st el cs) el' = labelOf st el' := by
  unfold labelOf withLabel
  simp [dictGet_dictSet_ne _ _ _ _ h]

theorem succOf_withLabel (st : Reasoner) (el : String) (cs : List String) (x : String) :
    succOf (withLabel st el cs) x = succOf st x := rfl

theorem growsTo_withLabel (st : Reasoner) (el : String) (cs : List String)
    (h : labelOf st el ⊆ cs) : GrowsTo st (withLabel st el cs) := by
  constructor
  · intro x
    by_cases hx : x = el
    · subst hx
      rw [labelOf_withLabel_self]
      exact h
    · rw [labelOf_withLabel_ne _ _ _ _ hx]
      exact fun _ hh => hh
  · intro x
    rw [succOf_withLabel]
    exact fun _ hh => hh

theorem growsTo_addConcept (st : Reasoner) (el c : String) :
    GrowsTo st (addConcept st el c) :=
  growsTo_withLabel st el _ (setAdd_sub _ _)

theorem growsTo_initialize_element (st : Reasoner) (e c : String) :
    GrowsTo st (initialize_element st e c) := by
  unfold initialize_element
  by_cases h : (dictGet st.concepts e).isSome
  · rw [if_pos h]
    exact GrowsTo.refl st
  · rw [if_neg h]
    constructor
    · intro x
      unfold labelOf
      dsimp only
      rcases hx : dictGet st.concepts x with _ | v
      · simp
      · rw [dictGet_append_some _ _ _ _ hx]
        exact fun _ hh => hh
    · intro x
      unfold succOf
      dsimp only
      rcases hx : dictGet st.successors x with _ | v
      · simp
      · rw [dictGet_append_some _ _ _ _ hx]
        exact fun _ hh => hh

theorem labelOf_setSuccessor (st : Reasoner) (el e role x : String) :
    labelOf (setSuccessor st el e role) x = labelOf st x := rfl

theorem succOf_setSuccessor_self (st : Reasoner) (el e role : String) :
    succOf (setSuccessor st el e role) el = dictSet (succOf st el) e role := by
  unfold succOf setSuccessor
  dsimp only
  rw [dictGet_dictSet_self]
  rfl

theorem succOf_setSuccessor_ne (st : Reasoner) (el e role x : String) (h : x ≠ el) :
    succOf (setSuccessor st el e role) x = succOf st x := by
  unfold succOf setSuccessor
  simp [dictGet_dictSet_ne _ _ _ _ h]

theorem growsTo_setSuccessor (st : Reasoner) (el e role : String) :
    GrowsTo st (setSuccessor st el e role) := by
  constructor
  · intro x
    rw [labelOf_setSuccessor]
    exact fun _ hh => hh
  · intro x
    by_cases hx : x = el
    · subst hx
      rw [succOf_setSuccessor_self]
      exact fun y hy => keys_dictSet_sub _ _ _ hy
    · rw [succOf_setSuccessor_ne _ _ _ _ _ hx]
      exact fun _ hh => hh

theorem foldl_growsTo {α : Type} (step : Reasoner × Bool → α → Reasoner × Bool)
    (hstep : ∀ a x, GrowsTo a.1 (step a x).1) :
    ∀ (l : List α) (a : Reasoner × Bool), GrowsTo a.1 (l.foldl step a).1 := by
  intro l
  induction l with
  | nil =>
    intro a
    exact GrowsTo.refl _
  | cons x xs ih =>
    intro a
    exact GrowsTo.trans (hstep a x) (ih (step a x))

theorem foldl_listGrow {α : Type} (step : List String × Bool → α → List String × Bool)
    (hstep : ∀ a x, a.1 ⊆ (step a x).1) :
    ∀ (l : List α) (a : List String × Bool), a.1 ⊆ (l.foldl step a).1 := by
  intro l
  induction l with
  | nil =>
    intro a
    exact fun _ hh => hh
  | cons x xs ih =>
    intro a
    exact (hstep a x).trans (ih (step a x))

theorem addPartStep_sub (a : List String × Bool) (x : String) :
    a.1 ⊆ (addPartStep a x).1 := by
  unfold addPartStep
  split
  · exact fun _ hh => hh
  · exact List.subset_append_left _ _

theorem conjRule1Step_sub (a : List String × Bool) (x : String) :
    a.1 ⊆ (conjRule1Step a x).1 := by
  unfold conjRule1Step
  split
  · exact foldl_listGrow addPartStep addPartStep_sub _ a
  · exact fun _ hh => hh

theorem conjRule1_sub (cs : List String) : cs ⊆ (conjRule1 cs).1 :=
  foldl_listGrow conjRule1Step conjRule1Step_sub cs (cs, false)

theorem conjPairStep_sub (input : List String) (x : String) (a : List String × Bool)
    (y : String) : a.1 ⊆ (conjPairStep input x a y).1 := by
  unfold conjPairStep
  dsimp only
  split
  · exact List.subset_append_left _ _
  · exact fun _ hh => hh

theorem conjPairs_sub (input : List String) :
    ∀ (cl : List String) (a : List String × Bool), a.1 ⊆ (conjPairs input cl a).1 := by
  intro cl
  induction cl with
  | nil =>
    intro a
    exact fun _ hh => hh
  | cons x rest ih =>
    intro a
    exact (foldl_listGrow (conjPairStep input x) (conjPairStep_sub input x) rest a).trans
      (ih _)

theorem conj_grows (st : Reasoner) (el : String) :
    GrowsTo st (apply_conjunction_rules st el).1 := by
  unfold apply_conjunction_rules
  exact growsTo_withLabel st el _ ((conjRule1_sub _).trans (conjPairs_sub _ _ _))

theorem top_grows (st : Reasoner) (el : String) :
    GrowsTo st (apply_top_rule st el).1 := by
  unfold apply_top_rule
  split
  · exact GrowsTo.refl st
  · exact growsTo_addConcept st el "TOP"

theorem existRule1Step_grows (el : String) (a : Reasoner × Bool) (c : String) :
    GrowsTo a.1 (existRule1Step el a c).1 := by
  unfold existRule1Step
  by_cases h1 : pyStartsWith c "∃" = true
  · rw [if_pos h1]
    by_cases h2 : hasMatchingSucc a.1 el (roleOf c) (fillerOf c) = true
    · rw [if_pos h2]
      exact GrowsTo.refl _
    · rw [if_neg h2]
      rcases hfind : findReuse a.1 (fillerOf c) with _ | p
      · simp only [hfind]
        exact GrowsTo.trans (growsTo_initialize_element _ _ _) (growsTo_setSuccessor _ _ _ _)
      · simp only [hfind]
        exact growsTo_setSuccessor _ _ _ _
  · rw [if_neg h1]
    exact GrowsTo.refl _

theorem existRule2Add_grows (el role : String) (a : Reasoner × Bool) (c : String) :
    GrowsTo a.1 (existRule2Add el role a c).1 := by
  unfold existRule2Add
  dsimp only
  split
  · exact GrowsTo.refl _
  · exact growsTo_withLabel _ _ _ (List.subset_append_left _ _)

theorem existRule2Step_grows (el : String) (a : Reasoner × Bool) (p : String × String) :
    GrowsTo a.1 (existRule2Step el a p).1 :=
  foldl_growsTo (existRule2Add el p.2) (existRule2Add_grows el p.2) _ a

theorem exist_grows (st : Reasoner) (el : String) :
    GrowsTo st (apply_existential_rules st el).1 := by
  unfold apply_existential_rules
  exact GrowsTo.trans
    (foldl_growsTo (existRule1Step el) (existRule1Step_grows el) _ (st, false))
    (foldl_growsTo (existRule2Step el) (existRule2Step_grows el) _ _)

theorem subEqStep_grows (el rhs : String) (a : Reasoner × Bool) (og : String × String) :
    GrowsTo a.1 (subEqStep el rhs a og).1 := by
  unfold subEqStep
  split
  · exact growsTo_addConcept _ _ _
  · exact GrowsTo.refl _

theorem subStep_grows (el : String) (a : Reasoner × Bool) (ax : String × String) :
    GrowsTo a.1 (subStep el a ax).1 := by
  unfold subStep
  dsimp only
  split
  · split
    · exact GrowsTo.trans (growsTo_addConcept a.1 el ax.2)
        (foldl_growsTo (subEqStep el ax.2) (subEqStep_grows el ax.2)
          (addConcept a.1 el ax.2).gci_axioms (addConcept a.1 el ax.2, true))
    · exact growsTo_addConcept _ _ _
  · exact GrowsTo.refl _

theorem sub_grows (st : Reasoner) (el : String) :
    GrowsTo st (apply_subsumption_rule st el).1 :=
  foldl_growsTo (subStep el) (subStep_grows el) _ (st, false)

theorem sweepOne_grows (a : Reasoner × Bool) (el : String) :
    GrowsTo a.1 (sweepOne a el).1 := by
  unfold sweepOne
  exact GrowsTo.trans (top_grows a.1 el)
    (GrowsTo.trans (conj_grows _ el)
      (GrowsTo.trans (exist_grows _ el) (sub_grows _ el)))

theorem sweep_grows (st : Reasoner) : GrowsTo st (sweep st).1 :=
  foldl_growsTo sweepOne sweepOne_grows _ (st, false)

theorem saturateLoop_grows : ∀ (fuel : Nat) (st : Reasoner) (ch : Bool),
    GrowsTo st (saturateLoop fuel st ch).1 := by
  intro fuel
  induction fuel with
  | zero =>
    intro st ch
    exact GrowsTo.refl st
  | succ n ih =>
    intro st ch
    cases ch with
    | false => exact GrowsTo.refl st
    | true =>
      show GrowsTo st (saturateLoop n (sweep st).1 (sweep st).2).1
      exact GrowsTo.trans (sweep_grows st) (ih (sweep st).1 (sweep st).2)

/-! ## Fixpoint analysis: a sweep that reports no change did nothing -/

theorem prodBool_eq {σ : Type} {p : σ × Bool} {s : σ} (h1 : p.1 = s) (h2 : p.2 = false) :
    p = (s, false) := by
  rcases p with ⟨a, b⟩
  cases h1
  cases h2
  rfl

theorem foldl_flag_true {σ α : Type} (step : σ × Bool → α → σ × Bool)
    (htrue : ∀ s x, (step (s, true) x).2 = true) :
    ∀ (l : List α) (s : σ), (l.foldl step (s, true)).2 = true := by
  intro l
  induction l with
  | nil =>
    intro s
    rfl
  | cons x xs ih =>
    intro s
    rw [List.foldl_cons]
    rcases hstep : step (s, true) x with ⟨s', b⟩
    have hb := htrue s x
    rw [hstep] at hb
    cases hb
    exact ih s'

theorem foldl_false {σ α : Type} (step : σ × Bool → α → σ × Bool) (s : σ) (P : α → Prop)
    (htrue : ∀ s' x, (step (s', true) x).2 = true)
    (hfalse : ∀ x, P x → (step (s, false) x).2 = false → step (s, false) x = (s, false)) :
    ∀ l : List α, (∀ x ∈ l, P x) →
      (l.foldl step (s, false)).2 = false →
      (l.foldl step (s, false)).1 = s ∧ ∀ x ∈ l, step (s, false) x = (s, false) := by
  intro l
  induction l with
  | nil =>
    intro _ _
    exact ⟨rfl, by simp⟩
  | cons x xs ih =>
    intro hP hflag
    rw [List.foldl_cons] at hflag
    have hx2 : (step (s, false) x).2 = false := by
      by_contra hb
      rw [Bool.not_eq_false] at hb
      rcases hstep : step (s, false) x with ⟨s', b⟩
      rw [hstep] at hb hflag
      cases hb
      rw [foldl_flag_true step htrue xs s'] at hflag
      cases hflag
    have hid := hfalse x (hP x (by simp)) hx2
    rw [hid] at hflag
    rcases ih (fun y hy => hP y (by simp [hy])) hflag with ⟨h1, h2⟩
    refine ⟨?_, ?_⟩
    · rw [List.foldl_cons, hid]
      exact h1
    · intro y hy
      rcases List.mem_cons.mp hy with hy | hy
      · subst hy
        exact hid
      · exact h2 y hy

theorem addPartStep_true (s : List String) (x : String) :
    (addPartStep (s, true) x).2 = true := by
  unfold addPartStep
  split <;> rfl

theorem addPartStep_false {s : List String} {x : String}
    (h : (addPartStep (s, false) x).2 = false) : addPartStep (s, false) x = (s, false) := by
  unfold addPartStep at h ⊢
  by_cases hm : x ∈ s
  · rw [if_pos hm]
  · rw [if_neg hm] at h
    cases h

theorem conjRule1Step_true (s : List String) (x : String) :
    (conjRule1Step (s, true) x).2 = true := by
  unfold conjRule1Step
  split
  · exact foldl_flag_true addPartStep addPartStep_true _ s
  · rfl

theorem conjRule1Step_false {s : List String} {x : String}
    (h : (conjRule1Step (s, false) x).2 = false) :
    conjRule1Step (s, false) x = (s, false) := by
  unfold conjRule1Step at h ⊢
  by_cases hc : pyContainsChar x '⊓' = true
  · rw [if_pos hc] at h ⊢
    rcases foldl_false addPartStep s (fun _ => True) addPartStep_true
        (fun y _ hy => addPartStep_false hy) _ (by simp) h with ⟨h1, _⟩
    exact prodBool_eq h1 h
  · rw [if_neg hc]

theorem conjRule1_false {cs : List String} (h : (conjRule1 cs).2 = false) :
    conjRule1 cs = (cs, false) := by
  unfold conjRule1 at h ⊢
  rcases foldl_false conjRule1Step cs (fun _ => True) conjRule1Step_true
      (fun y _ hy => conjRule1Step_false hy) _ (by simp) h with ⟨h1, _⟩
  exact prodBool_eq h1 h

theorem conjPairStep_true (input : List String) (x : String) (s : List String)
    (y : String) : (conjPairStep input x (s, true) y).2 = true := by
  unfold conjPairStep
  dsimp only
  split <;> rfl

theorem conjPairStep_false {input : List String} {x : String} {s : List String}
    {y : String} (h : (conjPairStep input x (s, false) y).2 = false) :
    conjPairStep input x (s, false) y = (s, false) := by
  unfold conjPairStep at h ⊢
  dsimp only at h ⊢
  by_cases hc : (x ++ " ⊓ " ++ y) ∈ input ∧ (x ++ " ⊓ " ++ y) ∉ s
  · rw [if_pos hc] at h
    cases h
  · rw [if_neg hc]

theorem conjPairStep_cond {input : List String} {x : String} {s : List String}
    {y : String} (h : conjPairStep input x (s, false) y = (s, false))
    (hin : (x ++ " ⊓ " ++ y) ∈ input) : (x ++ " ⊓ " ++ y) ∈ s := by
  by_contra hns
  unfold conjPairStep at h
  dsimp only at h
  rw [if_pos ⟨hin, hns⟩] at h
  have := congrArg Prod.snd h
  cases this

theorem conjPairs_true (input : List String) :
    ∀ (cl : List String) (s : List String), (conjPairs input cl (s, true)).2 = true := by
  intro cl
  induction cl with
  | nil =>
    intro s
    rfl
  | cons x rest ih =>
    intro s
    show (conjPairs input rest (rest.foldl (conjPairStep input x) (s, true))).2 = true
    rcases hstep : rest.foldl (conjPairStep input x) (s, true) with ⟨s', b⟩
    have hb := foldl_flag_true (conjPairStep input x) (conjPairStep_true input x) rest s
    rw [hstep] at hb
    cases hb
    exact ih s'

theorem conjPairs_false (input : List String) :
    ∀ (cl : List String) (cs : List String),
      (conjPairs input cl (cs, false)).2 = false →
      conjPairs input cl (cs, false) = (cs, false) ∧
        List.Pairwise (fun x y => (x ++ " ⊓ " ++ y) ∈ input → (x ++ " ⊓ " ++ y) ∈ cs) cl := by
  intro cl
  induction cl with
  | nil =>
    intro cs _
    exact ⟨rfl, List.Pairwise.nil⟩
  | cons x rest ih =>
    intro cs h
    have hdef : conjPairs input (x :: rest) (cs, false)
        = conjPairs input rest (rest.foldl (conjPairStep input x) (cs, false)) := rfl
    rw [hdef] at h ⊢
    have hinner2 : (rest.foldl (conjPairStep input x) (cs, false)).2 = false := by
      by_contra hb
      rw [Bool.not_eq_false] at hb
      rcases hstep : rest.foldl (conjPairStep input x) (cs, false) with ⟨s', b⟩
      rw [hstep] at hb h
      cases hb
      rw [conjPairs_true input rest s'] at h
      cases h
    rcases foldl_false (conjPairStep input x) cs (fun _ => True)
        (conjPairStep_true input x) (fun y _ hy => conjPairStep_false hy) rest
        (by simp) hinner2 with ⟨h1, h2⟩
    have hinner : rest.foldl (conjPairStep input x) (cs, false) = (cs, false) :=
      prodBool_eq h1 hinner2
    rw [hinner] at h ⊢
    rcases ih cs h with ⟨heq, hpw⟩
    refine ⟨heq, List.Pairwise.cons ?_ hpw⟩
    intro y hy hin
    exact conjPairStep_cond (h2 y hy) hin

theorem withLabel_labelOf (st : Reasoner) (el : String)
    (hel : el ∈ st.concepts.map Prod.fst) : withLabel st el (labelOf st el) = st := by
  rcases dictGet_isSome_of_mem_keys hel with ⟨v, hv⟩
  unfold withLabel labelOf
  rw [hv]
  show { st with concepts := dictSet st.concepts el v } = st
  rw [dictSet_eq_self _ _ _ hv]

theorem top_false {st : Reasoner} {el : String} (h : (apply_top_rule st el).2 = false) :
    apply_top_rule st el = (st, false) := by
  unfold apply_top_rule at h ⊢
  by_cases hm : "TOP" ∈ labelOf st el
  · rw [if_pos hm]
  · rw [if_neg hm] at h
    cases h

theorem conj_false {st : Reasoner} {el : String}
    (hel : el ∈ st.concepts.map Prod.fst)
    (h : (apply_conjunction_rules st el).2 = false) :
    apply_conjunction_rules st el = (st, false) ∧
      List.Pairwise (fun x y => (x ++ " ⊓ " ++ y) ∈ inputConcepts st.gci_axioms →
          (x ++ " ⊓ " ++ y) ∈ labelOf st el)
        (sortStrings ((conjRule1 (labelOf st el)).1.filter
          (fun c => decide (c ∈ inputConcepts st.gci_axioms)))) := by
  unfold apply_conjunction_rules at h ⊢
  dsimp only at h ⊢
  have h1flag : (conjRule1 (labelOf st el)).2 = false := by
    by_contra hb
    rw [Bool.not_eq_false] at hb
    rcases hp1 : conjRule1 (labelOf st el) with ⟨s', b⟩
    rw [hp1] at hb h
    cases hb
    rw [conjPairs_true _ _ s'] at h
    cases h
  have hp1 : conjRule1 (labelOf st el) = (labelOf st el, false) := conjRule1_false h1flag
  rw [hp1] at h ⊢
  rcases conjPairs_false _ _ _ h with ⟨heq, hpw⟩
  rw [heq]
  refine ⟨?_, ?_⟩
  · rw [withLabel_labelOf st el hel]
  · exact hpw

theorem existRule1Step_true (el : String) (s : Reasoner) (c : String) :
    (existRule1Step el (s, true) c).2 = true := by
  unfold existRule1Step
  by_cases h1 : pyStartsWith c "∃" = true
  · rw [if_pos h1]
    dsimp only
    by_cases h2 : hasMatchingSucc s el (roleOf c) (fillerOf c) = true
    · rw [if_pos h2]
    · rw [if_neg h2]
      rcases hfind : findReuse s (fillerOf c) with _ | p <;> simp [hfind]
  · rw [if_neg h1]

theorem existRule1Step_false {el : String} {s : Reasoner} {c : String}
    (h : (existRule1Step el (s, false) c).2 = false) :
    existRule1Step el (s, false) c = (s, false) := by
  unfold existRule1Step at h ⊢
  by_cases h1 : pyStartsWith c "∃" = true
  · rw [if_pos h1] at h ⊢
    dsimp only at h ⊢
    by_cases h2 : hasMatchingSucc s el (roleOf c) (fillerOf c) = true
    · rw [if_pos h2]
    · rw [if_neg h2] at h
      rcases hfind : findReuse s (fillerOf c) with _ | p <;> simp [hfind] at h
  · rw [if_neg h1]

theorem existRule2Add_true (el role : String) (s : Reasoner) (c : String) :
    (existRule2Add el role (s, true) c).2 = true := by
  unfold existRule2Add
  dsimp only
  split <;> rfl

theorem existRule2Add_false {el role : String} {s : Reasoner} {c : String}
    (h : (existRule2Add el role (s, false) c).2 = false) :
    existRule2Add el role (s, false) c = (s, false) := by
  unfold existRule2Add at h ⊢
  dsimp only at h ⊢
  by_cases hm : ("∃" ++ role ++ "." ++ c) ∈ labelOf s el
  · rw [if_pos hm]
  · rw [if_neg hm] at h
    cases h

theorem existRule2Step_true (el : String) (s : Reasoner) (p : String × String) :
    (existRule2Step el (s, true) p).2 = true := by
  unfold existRule2Step
  exact foldl_flag_true (existRule2Add el p.2) (existRule2Add_true el p.2) _ s

theorem existRule2Step_false {el : String} {s : Reasoner} {p : String × String}
    (h : (existRule2Step el (s, false) p).2 = false) :
    existRule2Step el (s, false) p = (s, false) := by
  unfold existRule2Step at h ⊢
  rcases foldl_false (existRule2Add el p.2) s (fun _ => True) (existRule2Add_true el p.2)
      (fun y _ hy => existRule2Add_false hy) _ (by simp) h with ⟨h1, _⟩
  exact prodBool_eq h1 h

theorem exist_false {st : Reasoner} {el : String}
    (h : (apply_existential_rules st el).2 = false) :
    apply_existential_rules st el = (st, false) := by
  unfold apply_existential_rules at h ⊢
  dsimp only at h ⊢
  have h1flag : ((labelOf st el).foldl (existRule1Step el) (st, false)).2 = false := by
    by_contra hb
    rw [Bool.not_eq_false] at hb
    rcases hp1 : (labelOf st el).foldl (existRule1Step el) (st, false) with ⟨s', b⟩
    rw [hp1] at hb h
    cases hb
    rw [foldl_flag_true (existRule2Step el) (fun s x => existRule2Step_true el s x) _ s'] at h
    cases h
  rcases foldl_false (existRule1Step el) st (fun _ => True)
      (fun s x => existRule1Step_true el s x)
      (fun y _ hy => existRule1Step_false hy) _ (by simp) h1flag with ⟨h1, _⟩
  have hp1 : (labelOf st el).foldl (existRule1Step el) (st, false) = (st, false) :=
    prodBool_eq h1 h1flag
  rw [hp1] at h ⊢
  rcases foldl_false (existRule2Step el) st (fun _ => True)
      (fun s x => existRule2Step_true el s x)
      (fun y _ hy => existRule2Step_false hy) _ (by simp) h with ⟨h2, _⟩
  exact prodBool_eq h2 h

theorem subEqStep_true (el rhs : String) (s : Reasoner) (og : String × String) :
    (subEqStep el rhs (s, true) og).2 = true := by
  unfold subEqStep
  split <;> rfl

theorem subStep_true (el : String) (s : Reasoner) (ax : String × String) :
    (subStep el (s, true) ax).2 = true := by
  unfold subStep
  dsimp only
  split
  · split
    · exact foldl_flag_true (subEqStep el ax.2) (subEqStep_true el ax.2) _ _
    · rfl
  · rfl

theorem subStep_false {el : String} {s : Reasoner} {ax : String × String}
    (h : (subStep el (s, false) ax).2 = false) :
    subStep el (s, false) ax = (s, false) := by
  unfold subStep at h ⊢
  dsimp only at h ⊢
  by_cases hc : ax.1 ∈ labelOf s el ∧ ax.2 ∉ labelOf s el
  · rw [if_pos hc] at h
    exfalso
    by_cases hm : (ax.2, ax.1) ∈ (addConcept s el ax.2).gci_axioms
    · rw [if_pos hm] at h
      rw [foldl_flag_true (subEqStep el ax.2) (subEqStep_true el ax.2) _ _] at h
      cases h
    · rw [if_neg hm] at h
      cases h
  · rw [if_neg hc]

theorem sub_false {st : Reasoner} {el : String}
    (h : (apply_subsumption_rule st el).2 = false) :
    apply_subsumption_rule st el = (st, false) ∧
      ∀ ax ∈ st.gci_axioms, ax.1 ∈ labelOf st el → ax.2 ∈ labelOf st el := by
  unfold apply_subsumption_rule at h ⊢
  rcases foldl_false (subStep el) st (fun _ => True) (fun s x => subStep_true el s x)
      (fun y _ hy => subStep_false hy) _ (by simp) h with ⟨h1, h2⟩
  refine ⟨prodBool_eq h1 h, ?_⟩
  intro ax hax hmem
  by_contra hnot
  have hfire : (subStep el (st, false) ax).2 = true := by
    unfold subStep
    dsimp only
    rw [if_pos ⟨hmem, hnot⟩]
    split
    · exact foldl_flag_true (subEqStep el ax.2) (subEqStep_true el ax.2) _ _
    · rfl
  rw [h2 ax hax] at hfire
  cases hfire

theorem sweepOne_true (s : Reasoner) (el : String) :
    (sweepOne (s, true) el).2 = true := by
  unfold sweepOne
  dsimp only
  rw [Bool.true_or]
  rfl

theorem sweepOne_false_rules {st : Reasoner} {el : String}
    (hel : el ∈ st.concepts.map Prod.fst)
    (h : (sweepOne (st, false) el).2 = false) :
    apply_top_rule st el = (st, false) ∧ apply_conjunction_rules st el = (st, false)
    ∧ apply_existential_rules st el = (st, false)
    ∧ apply_subsumption_rule st el = (st, false) := by
  unfold sweepOne at h
  dsimp only at h
  rw [Bool.false_or] at h
  simp only [Bool.or_eq_false_iff] at h
  obtain ⟨⟨⟨h1, h2⟩, h3⟩, h4⟩ := h
  have htop := top_false h1
  rw [htop] at h2 h3 h4
  dsimp only at h2 h3 h4
  have hconj := (conj_false hel h2).1
  rw [hconj] at h3 h4
  dsimp only at h3 h4
  have hex := exist_false h3
  rw [hex] at h4
  dsimp only at h4
  have hsub := (sub_false h4).1
  exact ⟨htop, hconj, hex, hsub⟩

theorem sweepOne_false_id {st : Reasoner} {el : String}
    (hel : el ∈ st.concepts.map Prod.fst)
    (h : (sweepOne (st, false) el).2 = false) :
    sweepOne (st, false) el = (st, false) := by
  rcases sweepOne_false_rules hel h with ⟨h1, h2, h3, h4⟩
  unfold sweepOne
  rw [h1]
  dsimp only
  rw [h2]
  dsimp only
  rw [h3]
  dsimp only
  rw [h4]
  rfl

theorem sweep_false {st : Reasoner} (h : (sweep st).2 = false) :
    (sweep st).1 = st ∧ ∀ el ∈ st.concepts.map Prod.fst,
      apply_top_rule st el = (st, false) ∧ apply_conjunction_rules st el = (st, false)
      ∧ apply_existential_rules st el = (st, false)
      ∧ apply_subsumption_rule st el = (st, false) := by
  unfold sweep at h ⊢
  rcases foldl_false sweepOne st (fun el => el ∈ st.concepts.map Prod.fst)
      sweepOne_true (fun x hx hflag => sweepOne_false_id hx hflag)
      _ (fun x hx => hx) h with ⟨h1, h2⟩
  refine ⟨h1, fun el hel => ?_⟩
  have heq := h2 el hel
  have hflag : (sweepOne (st, false) el).2 = false := by rw [heq]
  exact sweepOne_false_rules hel hflag

theorem saturateLoop_false (fuel : Nat) (st : Reasoner) :
    saturateLoop fuel st false = (st, false) := by
  cases fuel <;> rfl

theorem sortStrings_sorted (l : List String) : List.Sorted strLeRel (sortStrings l) :=
  List.sorted_insertionSort strLeRel l

theorem mem_sortStrings {l : List String} {x : String} : x ∈ sortStrings l ↔ x ∈ l :=
  List.mem_insertionSort strLeRel

theorem pairwise_of_sorted_lt {P : String → String → Prop} :
    ∀ {cl : List String}, List.Sorted strLeRel cl → List.Pairwise P cl →
      ∀ {l r : String}, l ∈ cl → r ∈ cl → pyStrLt l r = true → P l r := by
  intro cl
  induction cl with
  | nil =>
    intro _ _ l r hl _ _
    exact absurd hl (List.not_mem_nil l)
  | cons x xs ih =>
    intro hs hp l r hl hr hlt
    rcases List.mem_cons.mp hl with hlx | hlxs
    · subst hlx
      rcases List.mem_cons.mp hr with hrx | hrxs
      · subst hrx
        exfalso
        unfold pyStrLt at hlt
        rw [charListLt_irrefl] at hlt
        cases hlt
      · exact (List.pairwise_cons.mp hp).1 r hrxs
    · rcases List.mem_cons.mp hr with hrx | hrxs
      · subst hrx
        exfalso
        have hle := (List.sorted_cons.mp hs).1 l hlxs
        unfold strLeRel pyStrLe at hle
        rw [hlt] at hle
        simp at hle
      · exact ih (List.sorted_cons.mp hs).2 (List.pairwise_cons.mp hp).2 hlxs hrxs hlt

/-! ## The subsumption rule changes the state iff it reports a change -/

theorem setAdd_length_le (s : List String) (x : String) :
    s.length ≤ (setAdd s x).length := by
  unfold setAdd
  split
  · exact Nat.le.refl
  · simp

theorem setAdd_length_lt (s : List String) (x : String) (h : x ∉ s) :
    s.length < (setAdd s x).length := by
  unfold setAdd
  rw [if_neg h]
  simp

theorem foldl_measure_le {α : Type} (f : Reasoner → Nat)
    (step : Reasoner × Bool → α → Reasoner × Bool)
    (hstep : ∀ a x, f a.1 ≤ f (step a x).1) :
    ∀ (l : List α) (a : Reasoner × Bool), f a.1 ≤ f (l.foldl step a).1 := by
  intro l
  induction l with
  | nil =>
    intro a
    exact Nat.le.refl
  | cons x xs ih =>
    intro a
    exact (hstep a x).trans (ih (step a x))

theorem labelOf_addConcept (st : Reasoner) (el c : String) :
    labelOf (addConcept st el c) el = setAdd (labelOf st el) c :=
  labelOf_withLabel_self st el _

theorem subEqStep_measure (el rhs : String) (a : Reasoner × Bool) (og : String × String) :
    (labelOf a.1 el).length ≤ (labelOf (subEqStep el rhs a og).1 el).length := by
  unfold subEqStep
  split
  · show (labelOf a.1 el).length ≤ (labelOf (addConcept a.1 el og.2) el).length
    rw [labelOf_addConcept]
    exact setAdd_length_le _ _
  · exact Nat.le.refl

theorem subStep_measure (el : String) (a : Reasoner × Bool) (ax : String × String) :
    (labelOf a.1 el).length ≤ (labelOf (subStep el a ax).1 el).length := by
  unfold subStep
  dsimp only
  split
  · have hadd : (labelOf a.1 el).length ≤ (labelOf (addConcept a.1 el ax.2) el).length := by
      rw [labelOf_addConcept]
      exact setAdd_length_le _ _
    split
    · exact hadd.trans (foldl_measure_le (fun s => (labelOf s el).length)
        (subEqStep el ax.2) (subEqStep_measure el ax.2)
        (addConcept a.1 el ax.2).gci_axioms (addConcept a.1 el ax.2, true))
    · exact hadd
  · exact Nat.le.refl

theorem subStep_flag_gt (el : String) (a : Reasoner × Bool) (ax : String × String)
    (h : (subStep el a ax).2 = true) :
    a.2 = true ∨ (labelOf a.1 el).length < (labelOf (subStep el a ax).1 el).length := by
  unfold subStep at h ⊢
  dsimp only at h ⊢
  by_cases hc : ax.1 ∈ labelOf a.1 el ∧ ax.2 ∉ labelOf a.1 el
  · rw [if_pos hc] at h ⊢
    right
    have hadd : (labelOf a.1 el).length < (labelOf (addConcept a.1 el ax.2) el).length := by
      rw [labelOf_addConcept]
      exact setAdd_length_lt _ _ hc.2
    split
    · exact hadd.trans_le (foldl_measure_le (fun s => (labelOf s el).length)
        (subEqStep el ax.2) (subEqStep_measure el ax.2)
        (addConcept a.1 el ax.2).gci_axioms (addConcept a.1 el ax.2, true))
    · exact hadd
  · rw [if_neg hc] at h ⊢
    exact Or.inl h

theorem foldl_flag_gt {α : Type} (f : Reasoner → Nat)
    (step : Reasoner × Bool → α → Reasoner × Bool)
    (hmono : ∀ a x, f a.1 ≤ f (step a x).1)
    (hgt : ∀ a x, (step a x).2 = true → a.2 = true ∨ f a.1 < f (step a x).1) :
    ∀ (l : List α) (a : Reasoner × Bool), (l.foldl step a).2 = true →
      a.2 = true ∨ f a.1 < f (l.foldl step a).1 := by
  intro l
  induction l with
  | nil =>
    intro a h
    exact Or.inl h
  | cons x xs ih =>
    intro a h
    rw [List.foldl_cons] at h ⊢
    rcases ih (step a x) h with h' | h'
    · rcases hgt a x h' with h'' | h''
      · exact Or.inl h''
      · exact Or.inr (h''.trans_le (foldl_measure_le f step hmono xs (step a x)))
    · exact Or.inr ((hmono a x).trans_lt h')

theorem sub_change_iff (st : Reasoner) (el : String) :
    (apply_subsumption_rule st el).2 = true ↔ (apply_subsumption_rule st el).1 ≠ st := by
  constructor
  · intro h
    have := foldl_flag_gt (fun s => (labelOf s el).length) (subStep el)
      (subStep_measure el) (subStep_flag_gt el) st.gci_axioms (st, false) h
    rcases this with h' | h'
    · cases h'
    · intro heq
      unfold apply_subsumption_rule at heq
      rw [heq] at h'
      exact Nat.lt_irrefl _ h'
  · intro hne
    by_contra hflag
    rw [Bool.not_eq_true] at hflag
    exact hne (congrArg Prod.fst (sub_false hflag).1)

/-! ## The root state of a query and its first sweeps -/

/-- The state right after `compute_subsumers` initializes the root
element `d0` with the quoted query concept `q`. -/
def rootState (axioms : List (String × String)) (q : String) : Reasoner :=
  ⟨[("d0", [q])], [("d0", [])], [("d0", q)], axioms⟩

/-- The root state after the top rule has added `TOP`. -/
def rootStateTop (axioms : List (String × String)) (q : String) : Reasoner :=
  ⟨[("d0", [q, "TOP"])], [("d0", [])], [("d0", q)], axioms⟩

theorem initialize_root (axioms : List (String × String)) (q : String) :
    initialize_element (initState axioms) "d0" q = rootState axioms q := rfl

theorem top_rule_root (axioms : List (String × String)) (q : String) (hq : q ≠ "TOP") :
    apply_top_rule (rootState axioms q) "d0" = (rootStateTop axioms q, true) := by
  unfold apply_top_rule
  have hmem : ¬ ("TOP" ∈ labelOf (rootState axioms q) "d0") := by
    show ¬ ("TOP" ∈ [q])
    rw [List.mem_singleton]
    exact fun h => hq h.symm
  rw [if_neg hmem]
  unfold addConcept withLabel setAdd
  rw [if_neg (by
    show ¬ ("TOP" ∈ labelOf (rootState axioms q) "d0")
    rw [show labelOf (rootState axioms q) "d0" = [q] from rfl, List.mem_singleton]
    exact fun h => hq h.symm)]
  rfl

theorem top_mem_after_sweep (axioms : List (String × String)) (q : String)
    (hq : q ≠ "TOP") : "TOP" ∈ labelOf (sweep (rootState axioms q)).1 "d0" := by
  have hshape : (sweep (rootState axioms q)).1 =
      (apply_subsumption_rule (apply_existential_rules (apply_conjunction_rules
        (apply_top_rule (rootState axioms q) "d0").1 "d0").1 "d0").1 "d0").1 := rfl
  rw [hshape, top_rule_root axioms q hq]
  dsimp only
  have hg : GrowsTo (rootStateTop axioms q)
      (apply_subsumption_rule (apply_existential_rules (apply_conjunction_rules
        (rootStateTop axioms q) "d0").1 "d0").1 "d0").1 :=
    GrowsTo.trans (conj_grows _ "d0")
      (GrowsTo.trans (exist_grows _ "d0") (sub_grows _ "d0"))
  apply hg.1 "d0"
  show "TOP" ∈ [q, "TOP"]
  simp

/-! ## Inertness of all rules at the quiescent root state -/

theorem conjRule1Step_noop {c : String} (a : List String × Bool)
    (h : pyContainsChar c '⊓' = false) : conjRule1Step a c = a := by
  unfold conjRule1Step
  rw [if_neg (by rw [h]; exact Bool.false_ne_true)]

theorem existRule1Step_noop (el : String) (a : Reasoner × Bool) {c : String}
    (h : pyStartsWith c "∃" = false) : existRule1Step el a c = a := by
  unfold existRule1Step
  rw [if_neg (by rw [h]; exact Bool.false_ne_true)]

theorem foldl_const {σ α : Type} (step : σ → α → σ) (s : σ) :
    ∀ l : List α, (∀ x ∈ l, step s x = s) → l.foldl step s = s := by
  intro l
  induction l with
  | nil =>
    intro _
    rfl
  | cons x xs ih =>
    intro h
    rw [List.foldl_cons, h x (by simp)]
    exact ih (fun y hy => h y (by simp [hy]))

theorem conjPairs_short (input : List String) (cl : List String) (hcl : cl.length ≤ 1)
    (a : List String × Bool) : conjPairs input cl a = a := by
  rcases cl with _ | ⟨x, _ | ⟨y, rest⟩⟩
  · rfl
  · rfl
  · simp at hcl

theorem top_inert (axioms : List (String × String)) (q : String) :
    apply_top_rule (rootStateTop axioms q) "d0" = (rootStateTop axioms q, false) := by
  unfold apply_top_rule
  rw [if_pos (by show "TOP" ∈ [q, "TOP"]; simp)]

theorem conj_inert (axioms : List (String × String)) (q : String)
    (hq2 : pyContainsChar q '⊓' = false)
    (hqni : q ∉ inputConcepts axioms) :
    apply_conjunction_rules (rootStateTop axioms q) "d0"
      = (rootStateTop axioms q, false) := by
  unfold apply_conjunction_rules
  dsimp only
  rw [show labelOf (rootStateTop axioms q) "d0" = [q, "TOP"] from rfl]
  have hcr : conjRule1 [q, "TOP"] = ([q, "TOP"], false) := by
    unfold conjRule1
    rw [List.foldl_cons, conjRule1Step_noop _ hq2, List.foldl_cons,
      conjRule1Step_noop _ (by decide), List.foldl_nil]
  rw [hcr]
  dsimp only
  have hlen : (sortStrings ([q, "TOP"].filter
      (fun c => decide (c ∈ inputConcepts (rootStateTop axioms q).gci_axioms)))).length ≤ 1 := by
    rw [show (rootStateTop axioms q).gci_axioms = axioms from rfl]
    unfold sortStrings
    rw [(List.perm_insertionSort strLeRel _).length_eq]
    rw [List.filter_cons_of_neg (by simp [hqni])]
    exact List.length_filter_le _ _
  rw [conjPairs_short _ _ hlen]
  rfl

theorem exist_inert (axioms : List (String × String)) (q : String)
    (hq1 : pyStartsWith q "∃" = false) :
    apply_existential_rules (rootStateTop axioms q) "d0"
      = (rootStateTop axioms q, false) := by
  unfold apply_existential_rules
  dsimp only
  rw [show labelOf (rootStateTop axioms q) "d0" = [q, "TOP"] from rfl]
  rw [List.foldl_cons, existRule1Step_noop "d0" _ hq1, List.foldl_cons,
    existRule1Step_noop "d0" _ (by decide), List.foldl_nil]
  rfl

theorem sub_inert (axioms : List (String × String)) (q : String)
    (hax : ∀ p ∈ axioms, p.1 ≠ q ∧ p.1 ≠ "TOP") :
    apply_subsumption_rule (rootStateTop axioms q) "d0"
      = (rootStateTop axioms q, false) := by
  unfold apply_subsumption_rule
  apply foldl_const (subStep "d0") ((rootStateTop axioms q), false)
  intro p hp
  unfold subStep
  dsimp only
  rw [if_neg ?_]
  rintro ⟨h1, _⟩
  have h1' : p.1 ∈ [q, "TOP"] := h1
  rcases List.mem_cons.mp h1' with he | he
  · exact (hax p hp).1 he
  · rw [List.mem_singleton] at he
    exact (hax p hp).2 he

theorem sweepOne_inert (axioms : List (String × String)) (q : String)
    (hq1 : pyStartsWith q "∃" = false) (hq2 : pyContainsChar q '⊓' = false)
    (hqni : q ∉ inputConcepts axioms)
    (hax : ∀ p ∈ axioms, p.1 ≠ q ∧ p.1 ≠ "TOP") (b : Bool) :
    sweepOne ((rootStateTop axioms q), b) "d0" = (rootStateTop axioms q, b) := by
  unfold sweepOne
  rw [top_inert]
  dsimp only
  rw [conj_inert axioms q hq2 hqni]
  dsimp only
  rw [exist_inert axioms q hq1]
  dsimp only
  rw [sub_inert axioms q hax]
  simp

theorem sweep_rootStateTop (axioms : List (String × String)) (q : String)
    (hq1 : pyStartsWith q "∃" = false) (hq2 : pyContainsChar q '⊓' = false)
    (hqni : q ∉ inputConcepts axioms)
    (hax : ∀ p ∈ axioms, p.1 ≠ q ∧ p.1 ≠ "TOP") :
    sweep (rootStateTop axioms q) = (rootStateTop axioms q, false) := by
  show sweepOne ((rootStateTop axioms q), false) "d0" = (rootStateTop axioms q, false)
  exact sweepOne_inert axioms q hq1 hq2 hqni hax false

theorem sweep_rootState (axioms : List (String × String)) (q : String)
    (hq1 : pyStartsWith q "∃" = false) (hq2 : pyContainsChar q '⊓' = false)
    (hq3 : q ≠ "TOP") (hqni : q ∉ inputConcepts axioms)
    (hax : ∀ p ∈ axioms, p.1 ≠ q ∧ p.1 ≠ "TOP") :
    sweep (rootState axioms q) = (rootStateTop axioms q, true) := by
  show sweepOne ((rootState axioms q), false) "d0" = (rootStateTop axioms q, true)
  unfold sweepOne
  rw [top_rule_root axioms q hq3]
  dsimp only
  rw [conj_inert axioms q hq2 hqni]
  dsimp only
  rw [exist_inert axioms q hq1]
  dsimp only
  rw [sub_inert axioms q hax]
  rfl

theorem satLoop_root (axioms : List (String × String)) (q : String) (m : Nat)
    (hq1 : pyStartsWith q "∃" = false) (hq2 : pyContainsChar q '⊓' = false)
    (hq3 : q ≠ "TOP") (hqni : q ∉ inputConcepts axioms)
    (hax : ∀ p ∈ axioms, p.1 ≠ q ∧ p.1 ≠ "TOP") :
    saturateLoop (m + 2) (rootState axioms q) true = (rootStateTop axioms q, false) := by
  show saturateLoop (m + 1) (sweep (rootState axioms q)).1 (sweep (rootState axioms q)).2
    = (rootStateTop axioms q, false)
  rw [sweep_rootState axioms q hq1 hq2 hq3 hqni hax]
  show saturateLoop m (sweep (rootStateTop axioms q)).1 (sweep (rootStateTop axioms q)).2
    = (rootStateTop axioms q, false)
  rw [sweep_rootStateTop axioms q hq1 hq2 hqni hax]
  exact saturateLoop_false m _

/-! ## Each successor dict maps every target to exactly one role -/

/-- Every element's successor dict has at most one entry per target
element: the target keys are duplicate-free. -/
def SuccNodup (st : Reasoner) : Prop :=
  ∀ p ∈ st.successors, (p.2.map Prod.fst).Nodup

instance (st : Reasoner) : Decidable (SuccNodup st) := by
  unfold SuccNodup
  infer_instance

theorem succNodup_withLabel (st : Reasoner) (el : String) (cs : List String)
    (h : SuccNodup st) : SuccNodup (withLabel st el cs) := h

theorem succNodup_addConcept (st : Reasoner) (el c : String)
    (h : SuccNodup st) : SuccNodup (addConcept st el c) := h

theorem succNodup_newElement (st : Reasoner) (e c : String)
    (h : SuccNodup st) : SuccNodup (initialize_element st e c) := by
  unfold initialize_element
  split
  · exact h
  · intro p hp
    rcases List.mem_append.mp hp with hp | hp
    · exact h p hp
    · rw [List.mem_singleton] at hp
      subst hp
      simp

theorem succNodup_setSuccessor (st : Reasoner) (el e role : String)
    (h : SuccNodup st) : SuccNodup (setSuccessor st el e role) := by
  intro p hp
  unfold setSuccessor at hp
  dsimp only at hp
  rcases mem_dictSet hp with hp | hp
  · subst hp
    dsimp only
    apply keys_dictSet_nodup
    unfold succOf
    rcases hg : dictGet st.successors el with _ | v
    · simp
    · exact h (el, v) (dictGet_mem hg)
  · exact h p hp

theorem foldl_pred {α : Type} (Q : Reasoner → Prop) (step : Reasoner × Bool → α → Reasoner × Bool)
    (hstep : ∀ a x, Q a.1 → Q (step a x).1) :
    ∀ (l : List α) (a : Reasoner × Bool), Q a.1 → Q (l.foldl step a).1 := by
  intro l
  induction l with
  | nil =>
    intro a h
    exact h
  | cons x xs ih =>
    intro a h
    exact ih (step a x) (hstep a x h)

theorem succNodup_top (st : Reasoner) (el : String) (h : SuccNodup st) :
    SuccNodup (apply_top_rule st el).1 := by
  unfold apply_top_rule
  split
  · exact h
  · exact succNodup_addConcept st el "TOP" h

theorem succNodup_conj (st : Reasoner) (el : String) (h : SuccNodup st) :
    SuccNodup (apply_conjunction_rules st el).1 :=
  succNodup_withLabel st el _ h

theorem succNodup_existRule1Step (el : String) (a : Reasoner × Bool) (c : String)
    (h : SuccNodup a.1) : SuccNodup (existRule1Step el a c).1 := by
  unfold existRule1Step
  by_cases h1 : pyStartsWith c "∃" = true
  · rw [if_pos h1]
    dsimp only
    by_cases h2 : hasMatchingSucc a.1 el (roleOf c) (fillerOf c) = true
    · rw [if_pos h2]
      exact h
    · rw [if_neg h2]
      rcases hfind : findReuse a.1 (fillerOf c) with _ | p
      · simp only [hfind]
        exact succNodup_setSuccessor _ _ _ _ (succNodup_newElement _ _ _ h)
      · simp only [hfind]
        exact succNodup_setSuccessor _ _ _ _ h
  · rw [if_neg h1]
    exact h

theorem succNodup_existRule2Add (el role : String) (a : Reasoner × Bool) (c : String)
    (h : SuccNodup a.1) : SuccNodup (existRule2Add el role a c).1 := by
  unfold existRule2Add
  dsimp only
  split
  · exact h
  · exact succNodup_withLabel _ _ _ h

theorem succNodup_exist (st : Reasoner) (el : String) (h : SuccNodup st) :
    SuccNodup (apply_existential_rules st el).1 := by
  unfold apply_existential_rules
  dsimp only
  apply foldl_pred SuccNodup (existRule2Step el)
  · intro a p ha
    unfold existRule2Step
    exact foldl_pred SuccNodup (existRule2Add el p.2)
      (fun a' c => succNodup_existRule2Add el p.2 a' c) _ a ha
  · exact foldl_pred SuccNodup (existRule1Step el)
      (fun a c => succNodup_existRule1Step el a c) _ _ h

theorem succNodup_subEqStep (el rhs : String) (a : Reasoner × Bool) (og : String × String)
    (h : SuccNodup a.1) : SuccNodup (subEqStep el rhs a og).1 := by
  unfold subEqStep
  split
  · exact succNodup_addConcept _ _ _ h
  · exact h

theorem succNodup_subStep (el : String) (a : Reasoner × Bool) (ax : String × String)
    (h : SuccNodup a.1) : SuccNodup (subStep el a ax).1 := by
  unfold subStep
  dsimp only
  split
  · split
    · exact foldl_pred SuccNodup (subEqStep el ax.2)
        (fun a' og => succNodup_subEqStep el ax.2 a' og) _ _
        (succNodup_addConcept _ _ _ h)
    · exact succNodup_addConcept _ _ _ h
  · exact h

theorem succNodup_sub (st : Reasoner) (el : String) (h : SuccNodup st) :
    SuccNodup (apply_subsumption_rule st el).1 :=
  foldl_pred SuccNodup (subStep el) (fun a ax => succNodup_subStep el a ax) _ _ h

theorem succNodup_sweepOne (a : Reasoner × Bool) (el : String) (h : SuccNodup a.1) :
    SuccNodup (sweepOne a el).1 := by
  unfold sweepOne
  exact succNodup_sub _ el (succNodup_exist _ el (succNodup_conj _ el (succNodup_top _ el h)))

theorem succNodup_sweep (st : Reasoner) (h : SuccNodup st) : SuccNodup (sweep st).1 :=
  foldl_pred SuccNodup sweepOne succNodup_sweepOne _ _ h

theorem succNodup_saturateLoop : ∀ (fuel : Nat) (st : Reasoner) (ch : Bool),
    SuccNodup st → SuccNodup (saturateLoop fuel st ch).1 := by
  intro fuel
  induction fuel with
  | zero =>
    intro st ch h
    exact h
  | succ n ih =>
    intro st ch h
    cases ch with
    | false => exact h
    | true =>
      show SuccNodup (saturateLoop n (sweep st).1 (sweep st).2).1
      exact ih _ _ (succNodup_sweep st h)

/-! ## The claims -/

/-- C1: the claim says a saturation loop that stops because the hard
iteration cap was reached (rather than a change-free sweep) is reported
as a fatal internal inconsistency and never returned as a normal
subsumer set.  The code does no such thing: with an empty expanded GCI
list the cap is `0 * 10 = 0`, the loop stops with `changed` still
`true` (a cap stop, not a fixpoint), and `compute_subsumers` silently
returns the ordinary filtered root label as a normal result. -/
theorem claim1_cap_trip_returns_normal_result :
    (saturateLoop (([] : List (String × String)).length * 10)
        (initialize_element (initState []) "d0" (quoteClassName "A")) true).2 = true
    ∧ compute_subsumers [] "A" = ["\"A\""] := by
  exact ⟨rfl, by decide⟩

/-- C2 amended: every application of any of the four rule procedures
only grows each element's concept label and each element's set of
successor targets (and so does the whole saturation loop); but, contrary
to the original claim, the role stored on an existing (role, target)
edge is not preserved — see the counterexample. -/
theorem claim2_amended_monotonicity (st : Reasoner) (el : String) :
    GrowsTo st (apply_top_rule st el).1
    ∧ GrowsTo st (apply_conjunction_rules st el).1
    ∧ GrowsTo st (apply_existential_rules st el).1
    ∧ GrowsTo st (apply_subsumption_rule st el).1
    ∧ ∀ (fuel : Nat) (ch : Bool), GrowsTo st (saturateLoop fuel st ch).1 :=
  ⟨top_grows st el, conj_grows st el, exist_grows st el, sub_grows st el,
    fun fuel ch => saturateLoop_grows fuel st ch⟩

/-- C2 counterexample: in the run of `compute_subsumers` on the ontology
{A ⊑ ∃r.C, A ⊑ ∃s.C} with query A, during the second iteration's single
`apply_existential_rules` call on the root, the first existential records
the edge (d0_succ_0 ↦ r) and the second existential overwrites it with
(d0_succ_0 ↦ s): the (r, d0_succ_0) edge is removed, so (role, target)
edges do not grow monotonically. -/
theorem claim2_counterexample :
    (succOf (existRule1Step "d0"
        ((sweep (rootState [("\"A\"", "∃r.\"C\""), ("\"A\"", "∃s.\"C\"")] "\"A\"")).1, false)
        "∃r.\"C\"").1 "d0" = [("d0_succ_0", "r")])
    ∧ (succOf (existRule1Step "d0"
        (existRule1Step "d0"
          ((sweep (rootState [("\"A\"", "∃r.\"C\""), ("\"A\"", "∃s.\"C\"")] "\"A\"")).1, false)
          "∃r.\"C\"") "∃s.\"C\"").1 "d0" = [("d0_succ_0", "s")])
    ∧ (succOf (apply_existential_rules
        (sweep (rootState [("\"A\"", "∃r.\"C\""), ("\"A\"", "∃s.\"C\"")] "\"A\"")).1
        "d0").1 "d0" = [("d0_succ_0", "s")])
    ∧ quoteClassName "A" = "\"A\"" := by
  refine ⟨by decide, by decide, by decide, by decide⟩

/-- C3 amended: conjunctions are matched as ordered strings, not
unordered pairs.  At a fixpoint, for every element and every two label
members `l`, `r` that each occur as an axiom side, if the
sorted-orientation string `l ⊓ r` (with `l` before `r` in Python's
string order) occurs as an axiom side, then that string is in the
label.  The non-sorted orientation is never folded — see the
counterexample. -/
theorem claim3_amended_conjunction_fold (st : Reasoner) (el l r : String)
    (hfix : (sweep st).2 = false)
    (hel : el ∈ st.concepts.map Prod.fst)
    (hl : l ∈ labelOf st el) (hr : r ∈ labelOf st el)
    (hlin : l ∈ inputConcepts st.gci_axioms) (hrin : r ∈ inputConcepts st.gci_axioms)
    (hlt : pyStrLt l r = true)
    (hconj : (l ++ " ⊓ " ++ r) ∈ inputConcepts st.gci_axioms) :
    (l ++ " ⊓ " ++ r) ∈ labelOf st el := by
  have hconjeq := ((sweep_false hfix).2 el hel).2.1
  have hflag : (apply_conjunction_rules st el).2 = false := by rw [hconjeq]
  have hpw := (conj_false hel hflag).2
  have hlmem : l ∈ sortStrings ((conjRule1 (labelOf st el)).1.filter
      (fun c => decide (c ∈ inputConcepts st.gci_axioms))) :=
    mem_sortStrings.mpr (List.mem_filter.mpr ⟨conjRule1_sub _ hl, decide_eq_true hlin⟩)
  have hrmem : r ∈ sortStrings ((conjRule1 (labelOf st el)).1.filter
      (fun c => decide (c ∈ inputConcepts st.gci_axioms))) :=
    mem_sortStrings.mpr (List.mem_filter.mpr ⟨conjRule1_sub _ hr, decide_eq_true hrin⟩)
  exact pairwise_of_sorted_lt (sortStrings_sorted _) hpw hlmem hrmem hlt hconj

/-- C3 amended, witness: on {Q ⊑ A, Q ⊑ B, "A" ⊓ "B" ⊑ D} (conjunction
written in sorted orientation) the saturated root label contains
"A" ⊓ "B". -/
theorem claim3_amended_witness :
    "\"A\" ⊓ \"B\"" ∈ labelOf (saturateLoop 30
      (rootState [("\"Q\"", "\"A\""), ("\"Q\"", "\"B\""), ("\"A\" ⊓ \"B\"", "\"D\"")]
        "\"Q\"") true).1 "d0" :=
  claim3_amended_conjunction_fold _ "d0" "\"A\"" "\"B\"" (by decide) (by decide)
    (by decide) (by decide) (by decide) (by decide) (by decide) (by decide)

/-- C3 counterexample: on {Q ⊑ A, Q ⊑ B, "B" ⊓ "A" ⊑ D} with query Q the
loop reaches a real fixpoint, the root label contains both "A" and "B",
the conjunction of the two occurs in the ontology (in the orientation
"B" ⊓ "A"), yet neither orientation of the conjunction is ever added to
the label: the code compares conjunctions as ordered strings and only
builds the sorted orientation, so the interesting conjunction is missed
and D is never derived. -/
theorem claim3_counterexample :
    ((saturateLoop 30 (rootState
        [("\"Q\"", "\"A\""), ("\"Q\"", "\"B\""), ("\"B\" ⊓ \"A\"", "\"D\"")] "\"Q\"") true).2
      = false)
    ∧ "\"A\"" ∈ labelOf (saturateLoop 30 (rootState
        [("\"Q\"", "\"A\""), ("\"Q\"", "\"B\""), ("\"B\" ⊓ \"A\"", "\"D\"")] "\"Q\"") true).1 "d0"
    ∧ "\"B\"" ∈ labelOf (saturateLoop 30 (rootState
        [("\"Q\"", "\"A\""), ("\"Q\"", "\"B\""), ("\"B\" ⊓ \"A\"", "\"D\"")] "\"Q\"") true).1 "d0"
    ∧ "\"B\" ⊓ \"A\"" ∈ inputConcepts
        [("\"Q\"", "\"A\""), ("\"Q\"", "\"B\""), ("\"B\" ⊓ \"A\"", "\"D\"")]
    ∧ "\"B\" ⊓ \"A\"" ∉ labelOf (saturateLoop 30 (rootState
        [("\"Q\"", "\"A\""), ("\"Q\"", "\"B\""), ("\"B\" ⊓ \"A\"", "\"D\"")] "\"Q\"") true).1 "d0"
    ∧ "\"A\" ⊓ \"B\"" ∉ labelOf (saturateLoop 30 (rootState
        [("\"Q\"", "\"A\""), ("\"Q\"", "\"B\""), ("\"B\" ⊓ \"A\"", "\"D\"")] "\"Q\"") true).1 "d0" := by
  refine ⟨by decide, by decide, by decide, by decide, by decide, by decide⟩

/-- C4 amended: for a non-empty expanded GCI list in which no axiom side
equals the quoted query concept, no axiom's left side is the reserved
token TOP, and the quoted query contains no conjunction symbol,
`compute_subsumers` returns exactly the quoted query concept and TOP. -/
theorem claim4_amended_fresh_query (axioms : List (String × String)) (class_name : String)
    (hne : axioms ≠ [])
    (hax : ∀ p ∈ axioms, p.1 ≠ quoteClassName class_name
      ∧ p.2 ≠ quoteClassName class_name ∧ p.1 ≠ "TOP")
    (hq2 : pyContainsChar (quoteClassName class_name) '⊓' = false) :
    compute_subsumers axioms class_name = [quoteClassName class_name, "TOP"] := by
  unfold compute_subsumers
  dsimp only
  obtain ⟨m, hm⟩ : ∃ m, axioms.length * 10 = m + 2 := by
    have hpos : 0 < axioms.length := List.length_pos.mpr hne
    exact ⟨axioms.length * 10 - 2, by omega⟩
  have hqni : quoteClassName class_name ∉ inputConcepts axioms := by
    rw [mem_inputConcepts]
    rintro ⟨p, hp, hc | hc⟩
    · exact (hax p hp).1 hc
    · exact (hax p hp).2.1 hc
  have hax' : ∀ p ∈ axioms, p.1 ≠ quoteClassName class_name ∧ p.1 ≠ "TOP" :=
    fun p hp => ⟨(hax p hp).1, (hax p hp).2.2⟩
  rw [initialize_root, hm,
    satLoop_root axioms _ m (quote_not_existential class_name) hq2
      (quote_ne_TOP class_name) hqni hax']
  dsimp only
  rw [show labelOf (rootStateTop axioms (quoteClassName class_name)) "d0"
      = [quoteClassName class_name, "TOP"] from rfl]
  rw [List.filter_cons_of_pos (isOutput_quote class_name),
    List.filter_cons_of_pos (by decide), List.filter_nil]

/-- C4 amended, witness: on the ontology {X ⊑ Y} the query A occurs in
no axiom and the result is exactly [A, TOP]. -/
theorem claim4_amended_witness :
    compute_subsumers [("\"X\"", "\"Y\"")] "A" = ["\"A\"", "TOP"] := by
  have h := claim4_amended_fresh_query [("\"X\"", "\"Y\"")] "A" (by decide)
    (by decide) (by decide)
  rw [show quoteClassName "A" = "\"A\"" from by decide] at h
  exact h

/-- C4 counterexample: the claim fails for the empty ontology — the
query Q occurs in no axiom (vacuously), yet the saturation loop's cap is
zero, TOP is never added, and the result is the singleton [Q] rather
than the claimed two-element set. -/
theorem claim4_counterexample :
    compute_subsumers [] "Q" = ["\"Q\""] ∧ "TOP" ∉ compute_subsumers [] "Q" := by
  exact ⟨by decide, by decide⟩

/-- C5: at a fixpoint (a full sweep reports no change) every axiom
(lhs, rhs) of the expanded GCI set is satisfied at every element of the
graph — lhs in the label implies rhs in the label; and a single
application of the subsumption rule only adds (labels and successor
targets only grow) and returns true exactly when it changed the
state. -/
theorem claim5_subsumption_fixpoint (st : Reasoner) (hfix : (sweep st).2 = false) :
    (∀ ax ∈ st.gci_axioms, ∀ el ∈ st.concepts.map Prod.fst,
        ax.1 ∈ labelOf st el → ax.2 ∈ labelOf st el)
    ∧ (∀ (s : Reasoner) (el : String),
        GrowsTo s (apply_subsumption_rule s el).1
        ∧ ((apply_subsumption_rule s el).2 = true ↔ (apply_subsumption_rule s el).1 ≠ s)) := by
  constructor
  · intro ax hax el hel h1
    have hsubeq := ((sweep_false hfix).2 el hel).2.2.2
    have hflag : (apply_subsumption_rule st el).2 = false := by rw [hsubeq]
    exact (sub_false hflag).2 ax hax h1
  · intro s el
    exact ⟨sub_grows s el, sub_change_iff s el⟩

/-- C5 witness: in the saturated run of {A ⊑ B} with query A, the axiom
is satisfied at the root: B is in the root label. -/
theorem claim5_witness :
    "\"B\"" ∈ labelOf (saturateLoop 10 (rootState [("\"A\"", "\"B\"")] "\"A\"") true).1 "d0" :=
  (claim5_subsumption_fixpoint _ (by decide)).1 ("\"A\"", "\"B\"") (by decide)
    "d0" (by decide) (by decide)

/-- C6 amended: when the existential-generation rule fires for a concept
`∃role.filler` in an element's label and no matching role-successor
exists, it reuses the first element in creation order whose generating
concept equals the filler — with no exclusion of the element currently
being processed, which can therefore be reused as its own successor —
and otherwise creates the fresh element named from the current successor
count; in both cases it writes the (role, target) edge into the
successor dict. -/
theorem claim6_amended_reuse (el concept : String) (a : Reasoner × Bool)
    (hex : pyStartsWith concept "∃" = true)
    (hns : hasMatchingSucc a.1 el (roleOf concept) (fillerOf concept) = false) :
    (∀ p, findReuse a.1 (fillerOf concept) = some p →
      p ∈ a.1.initial_concepts ∧ p.2 = fillerOf concept
      ∧ existRule1Step el a concept = (setSuccessor a.1 el p.1 (roleOf concept), true)
      ∧ dictGet (succOf (setSuccessor a.1 el p.1 (roleOf concept)) el) p.1
          = some (roleOf concept))
    ∧ (findReuse a.1 (fillerOf concept) = none →
      existRule1Step el a concept =
        (setSuccessor (initialize_element a.1
            (el ++ "_succ_" ++ toString (succOf a.1 el).length) (fillerOf concept))
          el (el ++ "_succ_" ++ toString (succOf a.1 el).length) (roleOf concept), true)) := by
  constructor
  · intro p hp
    have hp' := hp
    unfold findReuse at hp'
    refine ⟨List.mem_of_find?_eq_some hp', ?_, ?_, ?_⟩
    · have hfact := List.find?_some hp'
      exact of_decide_eq_true hfact
    · unfold existRule1Step
      rw [if_pos hex]
      dsimp only
      rw [if_neg (by rw [hns]; exact Bool.false_ne_true)]
      simp only [hp]
    · rw [succOf_setSuccessor_self]
      exact dictGet_dictSet_self _ _ _
  · intro hp
    unfold existRule1Step
    rw [if_pos hex]
    dsimp only
    rw [if_neg (by rw [hns]; exact Bool.false_ne_true)]
    simp only [hp]

/-- C6 amended, witness: in the run of {C ⊑ ∃r.C} with query C, after
the first sweep the rule fires for ∃r.C and reuses the root element d0
itself (whose generating concept is C), adding the self-loop edge. -/
theorem claim6_amended_witness :
    existRule1Step "d0"
        ((sweep (rootState [("\"C\"", "∃r.\"C\"")] "\"C\"")).1, false) "∃r.\"C\""
      = (setSuccessor (sweep (rootState [("\"C\"", "∃r.\"C\"")] "\"C\"")).1
          "d0" "d0" (roleOf "∃r.\"C\""), true) :=
  ((claim6_amended_reuse "d0" "∃r.\"C\""
      ((sweep (rootState [("\"C\"", "∃r.\"C\"")] "\"C\"")).1, false)
      (by decide) (by decide)).1
    ("d0", "\"C\"") (by decide)).2.2.1

/-- C6 counterexample: the claim says reuse happens only when the
matching element is some element *other* than the one being processed.
In the run of {C ⊑ ∃r.C} with query C, after the first sweep the root
label contains ∃r.C, there is no matching successor, the root's own
generating concept equals the filler C, and the rule adds the self-loop
edge (d0, r): the element being processed is itself reused. -/
theorem claim6_counterexample :
    "∃r.\"C\"" ∈ labelOf (sweep (rootState [("\"C\"", "∃r.\"C\"")] "\"C\"")).1 "d0"
    ∧ hasMatchingSucc (sweep (rootState [("\"C\"", "∃r.\"C\"")] "\"C\"")).1 "d0"
        (roleOf "∃r.\"C\"") (fillerOf "∃r.\"C\"") = false
    ∧ dictGet (sweep (rootState [("\"C\"", "∃r.\"C\"")] "\"C\"")).1.initial_concepts "d0"
        = some "\"C\""
    ∧ fillerOf "∃r.\"C\"" = "\"C\""
    ∧ succOf (apply_existential_rules
        (sweep (rootState [("\"C\"", "∃r.\"C\"")] "\"C\"")).1 "d0").1 "d0"
      = [("d0", "r")] := by
  refine ⟨by decide, by decide, by decide, by decide, by decide⟩

/-- C7: for every non-empty expanded GCI list and every query concept,
the reserved token TOP is in the set returned by `compute_subsumers`. -/
theorem claim7_top_inclusion (axioms : List (String × String)) (class_name : String)
    (hne : axioms ≠ []) : "TOP" ∈ compute_subsumers axioms class_name := by
  unfold compute_subsumers
  dsimp only
  rw [initialize_root]
  obtain ⟨m, hm⟩ : ∃ m, axioms.length * 10 = m + 1 := by
    have hpos : 0 < axioms.length := List.length_pos.mpr hne
    exact ⟨axioms.length * 10 - 1, by omega⟩
  rw [hm]
  apply List.mem_filter.mpr
  refine ⟨?_, by decide⟩
  have hstep : saturateLoop (m + 1) (rootState axioms (quoteClassName class_name)) true
      = saturateLoop m (sweep (rootState axioms (quoteClassName class_name))).1
          (sweep (rootState axioms (quoteClassName class_name))).2 := rfl
  rw [hstep]
  exact (saturateLoop_grows m _ _).1 "d0"
    (top_mem_after_sweep axioms (quoteClassName class_name) (quote_ne_TOP class_name))

/-- C7 witness: TOP is a subsumer of A under the ontology {A ⊑ B}. -/
theorem claim7_witness : "TOP" ∈ compute_subsumers [("\"A\"", "\"B\"")] "A" :=
  claim7_top_inclusion [("\"A\"", "\"B\"")] "A" (by decide)

/-- C8: idempotence of saturation — on a state at which one full sweep
over all elements reports no change, the sweep indeed left the state
unchanged, sweeping again changes nothing, and every further application
of any of the four rule procedures to any element of the graph returns
false and leaves the state unchanged. -/
theorem claim8_idempotence (st : Reasoner) (hfix : (sweep st).2 = false) :
    (sweep st).1 = st ∧ sweep st = (st, false)
    ∧ ∀ el ∈ st.concepts.map Prod.fst,
        apply_top_rule st el = (st, false) ∧ apply_conjunction_rules st el = (st, false)
        ∧ apply_existential_rules st el = (st, false)
        ∧ apply_subsumption_rule st el = (st, false) := by
  rcases sweep_false hfix with ⟨h1, h2⟩
  exact ⟨h1, prodBool_eq h1 hfix, h2⟩

/-- C8 witness: the saturated state of the run of {A ⊑ B} with query A
is a fixpoint, and sweeping it again returns it unchanged. -/
theorem claim8_witness :
    sweep (saturateLoop 10 (rootState [("\"A\"", "\"B\"")] "\"A\"") true).1
      = ((saturateLoop 10 (rootState [("\"A\"", "\"B\"")] "\"A\"") true).1, false) :=
  (claim8_idempotence _ (by decide)).2.1

/-- C9: each element's successor structure is a dict from target element
to a single role — writing an edge for an existing target overwrites the
stored role and leaves other targets unchanged, dict keys stay
duplicate-free, `setSuccessor` is exactly such a dict write, the
at-most-one-role-per-target invariant is preserved by all four rule
procedures and by the whole saturation loop, and it holds at the initial
root state of a query. -/
theorem claim9_successor_unique_role :
    (∀ (d : List (String × String)) (tgt role : String),
      dictGet (dictSet d tgt role) tgt = some role
      ∧ (∀ t', t' ≠ tgt → dictGet (dictSet d tgt role) t' = dictGet d t')
      ∧ ((d.map Prod.fst).Nodup → ((dictSet d tgt role).map Prod.fst).Nodup))
    ∧ (∀ (st : Reasoner) (el tgt role : String),
      succOf (setSuccessor st el tgt role) el = dictSet (succOf st el) tgt role)
    ∧ (∀ (st : Reasoner) (el : String), SuccNodup st →
      SuccNodup (apply_top_rule st el).1 ∧ SuccNodup (apply_conjunction_rules st el).1
      ∧ SuccNodup (apply_existential_rules st el).1
      ∧ SuccNodup (apply_subsumption_rule st el).1)
    ∧ (∀ (fuel : Nat) (st : Reasoner) (ch : Bool), SuccNodup st →
      SuccNodup (saturateLoop fuel st ch).1)
    ∧ (∀ (axioms : List (String × String)) (q : String),
      SuccNodup (initialize_element (initState axioms) "d0" q)) := by
  refine ⟨?_, ?_, ?_, ?_, ?_⟩
  · intro d tgt role
    exact ⟨dictGet_dictSet_self d tgt role,
      fun t' ht => dictGet_dictSet_ne d tgt t' role ht,
      keys_dictSet_nodup d tgt role⟩
  · intro st el tgt role
    exact succOf_setSuccessor_self st el tgt role
  · intro st el h
    exact ⟨succNodup_top st el h, succNodup_conj st el h,
      succNodup_exist st el h, succNodup_sub st el h⟩
  · exact succNodup_saturateLoop
  · intro axioms q
    intro p hp
    rw [show (initialize_element (initState axioms) "d0" q).successors
        = [("d0", [])] from rfl] at hp
    rw [List.mem_singleton] at hp
    subst hp
    simp

/-- C9 witness: the invariant holds after the existential rule ran on
the post-first-sweep state of the {C ⊑ ∃r.C} run (which added a
self-loop edge). -/
theorem claim9_witness :
    SuccNodup (apply_existential_rules
      (sweep (rootState [("\"C\"", "∃r.\"C\"")] "\"C\"")).1 "d0").1 :=
  (claim9_successor_unique_role.2.2.1
    (sweep (rootState [("\"C\"", "∃r.\"C\"")] "\"C\"")).1 "d0" (by decide)).2.2.1

/-- C10: with an empty expanded GCI list the iteration bound
`len(gci_axioms) * 10` is zero, so the while loop runs zero iterations
(it returns its input state with `changed` still true), no rule is ever
applied, and the result is exactly the singleton of the quoted query
concept, without the reserved TOP token. -/
theorem claim10_empty_ontology (class_name : String) :
    compute_subsumers [] class_name = [quoteClassName class_name]
    ∧ "TOP" ∉ compute_subsumers [] class_name
    ∧ saturateLoop (([] : List (String × String)).length * 10)
        (initialize_element (initState []) "d0" (quoteClassName class_name)) true
      = (initialize_element (initState []) "d0" (quoteClassName class_name), true) := by
  have hcq : compute_subsumers [] class_name = [quoteClassName class_name] := by
    unfold compute_subsumers
    dsimp only
    rw [initialize_root]
    rw [show labelOf (saturateLoop (([] : List (String × String)).length * 10)
        (rootState [] (quoteClassName class_name)) true).1 "d0"
      = labelOf (rootState [] (quoteClassName class_name)) "d0" from rfl]
    rw [show labelOf (rootState [] (quoteClassName class_name)) "d0"
        = [quoteClassName class_name] from rfl]
    rw [List.filter_cons_of_pos (isOutput_quote class_name), List.filter_nil]
  refine ⟨hcq, ?_, rfl⟩
  rw [hcq, List.mem_singleton]
  exact fun h => quote_ne_TOP class_name h.symm

end ELVerify
